import Mathlib

/-!
# Verification of the submillisecond radix-tree router core

This file gives a shallow embedding of the radix-tree router described by
the repository specification, together with the signature-processing logic
of `Route::parse_with_attributes` from
`src/submillisecond_macros/src/route.rs`, and proves properties about them.

The router core (`Node`, `ConstNode`, `Params`, insertion, freezing,
matching and merging) lives in the `submillisecond_core` crate, whose
source is not part of this repository snapshot; only its caller
(`route.rs`) is.  Those definitions are therefore modelled from the
specification, as indicated by their doc comments.  Paths and patterns are
byte strings; we represent bytes as `Char` values (the spec restricts the
pattern syntax to ASCII and all comparisons are exact byte equality, so
this is faithful).
-/

/-- Modelled from the spec: the `NodeType` tag, one of `Root`, `Static`,
`Param` (pattern syntax `:name`) or `CatchAll` (pattern syntax `*name`). -/
inductive NodeType where
  | root
  | static
  | param
  | catchAll
deriving DecidableEq, Repr

/-- `true` exactly on the wildcard node types `Param` and `CatchAll`. -/
def NodeType.isWild : NodeType → Bool
  | .param => true
  | .catchAll => true
  | _ => false

/-- Modelled from the spec: the mutable build-time tree node.  Field
`pfx` is the spec's `prefix` (the literal bytes this node owns; for
`Param`/`CatchAll` nodes it holds the parameter name).  `endpoint`
records that a registration terminated exactly at this node (the spec's
§4.1 terminal case, consulted by the matcher's step 2). -/
structure Node where
  priority : Nat
  wildChild : Bool
  indices : List Char
  nodeType : NodeType
  pfx : List Char
  children : List Node
  endpoint : Bool
deriving Repr

/-- Modelled from the spec: the immutable frozen mirror of `Node` with
identical semantic fields. -/
structure ConstNode where
  priority : Nat
  wildChild : Bool
  indices : List Char
  nodeType : NodeType
  pfx : List Char
  children : List ConstNode
  endpoint : Bool
deriving Repr

/-- Modelled from the spec: `Params`, an ordered collection of
(name, value) byte-string pairs extracted during a match. -/
abbrev Params := List (List Char × List Char)

/-- Modelled from the spec: `InsertError`, raised at registration time for
a structurally invalid or conflicting pattern (duplicate parameter name,
misplaced catch-all, empty parameter name, static/wildcard conflict). -/
inductive InsertError where
  | emptyName
  | catchAllNotLast
  | duplicateName
  | conflict
deriving DecidableEq, Repr

/-- Modelled from the spec: `MatchError`, the terminal "no route pattern
in this tree matches the given path" outcome, with no diagnostic payload. -/
inductive MatchError where
  | notFound
deriving DecidableEq, Repr

/-- The empty root node (`Node::default()` at `route.rs` line 35). -/
def Node.start : Node :=
  { priority := 0, wildChild := false, indices := [], nodeType := .root,
    pfx := [], children := [], endpoint := false }

/-- A byte starting a wildcard segment: `:` introduces a `Param`, `*` a
`CatchAll`. -/
def isWildStart (c : Char) : Bool := c = ':' || c = '*'

/-- Length of the longest common byte-prefix of two byte strings
(spec §4.1 step 2). -/
def lcpLen : List Char → List Char → Nat
  | a :: as, b :: bs => if a = b then lcpLen as bs + 1 else 0
  | _, _ => 0

/-- Modelled from the spec (§4.1 step 3): scan the pattern for the first
`:`-prefixed or `*`-prefixed wildcard; the result is the static part
before it, whether it is a catch-all, its name (the bytes up to the next
`/` or the end), and the remaining pattern after the name. -/
def findWild : List Char → Option (List Char × Bool × List Char × List Char)
  | [] => none
  | c :: cs =>
    if c = ':' then some ([], false, cs.takeWhile (· ≠ '/'), cs.dropWhile (· ≠ '/'))
    else if c = '*' then some ([], true, cs.takeWhile (· ≠ '/'), cs.dropWhile (· ≠ '/'))
    else (findWild cs).map fun r => (c :: r.1, r.2)

theorem dropWhile_length_le (q : Char → Bool) (l : List Char) :
    (l.dropWhile q).length ≤ l.length := by
  induction l with
  | nil => simp
  | cons a l ih =>
    by_cases h : q a
    · simp only [List.dropWhile_cons, h]
      simp
      omega
    · simp only [List.dropWhile_cons, h]
      simp

theorem findWild_rest_lt {p s : List Char} {b : Bool} {nm r : List Char}
    (h : findWild p = some (s, b, nm, r)) : r.length < p.length := by
  induction p generalizing s b nm r with
  | nil => simp [findWild] at h
  | cons c cs ih =>
    by_cases hc : c = ':'
    · rw [findWild, if_pos hc] at h
      simp only [Option.some.injEq, Prod.mk.injEq] at h
      obtain ⟨hs, hb, hn, hr⟩ := h
      subst hr
      have := dropWhile_length_le (· ≠ '/') cs
      simp only [List.length_cons]
      omega
    · by_cases hc2 : c = '*'
      · rw [findWild, if_neg hc, if_pos hc2] at h
        simp only [Option.some.injEq, Prod.mk.injEq] at h
        obtain ⟨hs, hb, hn, hr⟩ := h
        subst hr
        have := dropWhile_length_le (· ≠ '/') cs
        simp only [List.length_cons]
        omega
      · rw [findWild, if_neg hc, if_neg hc2] at h
        cases hw : findWild cs with
        | none => rw [hw] at h; simp at h
        | some t =>
          obtain ⟨s', b', n', r'⟩ := t
          rw [hw] at h
          simp only [Option.map_some', Option.some.injEq, Prod.mk.injEq] at h
          obtain ⟨hs, hb, hn, hr⟩ := h
          subst hr
          have := ih hw
          simp only [List.length_cons]
          omega

/-- Modelled from the spec (§4.1 error cases): scan a whole pattern for
structural validity, carrying the parameter names seen so far.  Reports an
empty `Param`/`CatchAll` name, a catch-all that is not the final segment,
or two parameters with the same name in one pattern. -/
def patErr (p : List Char) (seen : List (List Char)) : Option InsertError :=
  match h : findWild p with
  | none => none
  | some (_, isCatch, name, rest) =>
    if name = [] then some .emptyName
    else if isCatch && !rest.isEmpty then some .catchAllNotLast
    else if name ∈ seen then some .duplicateName
    else patErr rest (name :: seen)
termination_by p.length
decreasing_by exact findWild_rest_lt h

/-- The `indices` sequence determined by a node's children: empty when the
single child is the wildcard child, otherwise the first byte of each
static child's prefix (spec §3: `indices[i]` is the first byte of
`children[i].prefix`). -/
def derIdx (wild : Bool) (cs : List Node) : List Char :=
  if wild then [] else cs.map fun c => c.pfx.headD ' '

mutual

/-- Modelled from the spec (§4.1 steps 1 and 3): build the chain of fresh
nodes for a pattern suffix inserted below an existing position.  The
static part before the first wildcard becomes a `Static` node carrying the
wildcard node (if any) as its single wildcard child.  Every fresh node has
`priority` 1 (one route passes through it). -/
def buildChain (p : List Char) : Node :=
  match h : findWild p with
  | none =>
    { priority := 1, wildChild := false, indices := [], nodeType := .static,
      pfx := p, children := [], endpoint := true }
  | some (s, isCatch, name, rest) =>
    if s.isEmpty then buildWild isCatch name rest
    else
      { priority := 1, wildChild := true, indices := [], nodeType := .static,
        pfx := s, children := [buildWild isCatch name rest], endpoint := false }
termination_by (p.length, 0)
decreasing_by
  all_goals exact Prod.Lex.left _ _ (findWild_rest_lt h)

/-- Modelled from the spec (§4.1 step 3): the fresh `Param` or `CatchAll`
node for a wildcard segment with the given name, with the rest of the
pattern recursively hanging below it. -/
def buildWild (isCatch : Bool) (name rest : List Char) : Node :=
  if isCatch then
    { priority := 1, wildChild := false, indices := [], nodeType := .catchAll,
      pfx := name, children := [], endpoint := true }
  else if rest.isEmpty then
    { priority := 1, wildChild := false, indices := [], nodeType := .param,
      pfx := name, children := [], endpoint := true }
  else
    let c := buildChain rest
    { priority := 1, wildChild := false, indices := [c.pfx.headD ' '],
      nodeType := .param, pfx := name, children := [c], endpoint := false }
termination_by (rest.length, 1)
decreasing_by
  exact Prod.Lex.right _ (Nat.lt_succ_self 0)

end

/-- Modelled from the spec (§4.1 step 1): a fresh root (empty prefix, no
children, no endpoint) takes the pattern directly: its prefix becomes the
static part and the wildcard chain (if any) hangs below it. -/
def buildInto (n : Node) (p : List Char) : Node :=
  match findWild p with
  | none =>
    { n with priority := n.priority + 1, pfx := p, endpoint := true }
  | some (s, isCatch, name, rest) =>
    { n with
      priority := n.priority + 1
      pfx := s
      wildChild := true
      indices := []
      children := [buildWild isCatch name rest] }

/-- Single-step bubble (spec §4.1 step 4): a child whose priority was just
incremented is moved toward the front of its preceding siblings, past
exactly those with strictly smaller priority (stable with respect to
ties). -/
def placeIn : List Node → Node → List Node
  | [], x => [x]
  | y :: ys, x => if y.priority < x.priority then x :: y :: ys else y :: placeIn ys x

/-- Whether a node is a fresh root in the sense of spec §4.1 step 1:
empty prefix, no children and not an endpoint. -/
def Node.isFresh (n : Node) : Bool :=
  n.pfx.isEmpty && n.children.isEmpty && !n.endpoint

/-- Modelled from the spec (§4.1 step 2, split): when the common prefix is
shorter than the node's prefix, a new child carries the remainder of the
old prefix together with the old node's children, indices, wild_child flag
and endpoint registration; the node keeps the common part.  The remaining
pattern tail then terminates here (endpoint), conflicts (a wildcard tail
cannot join the static split child), or is appended as a second child. -/
def splitIns (pr : Nat) (wc : Bool) (idx : List Char) (ty : NodeType) (px : List Char)
    (cs : List Node) (ep : Bool) (i : Nat) (p : List Char) : Except InsertError Node :=
  let child : Node := ⟨pr, wc, idx, .static, px.drop i, cs, ep⟩
  match p.drop i with
  | [] => .ok ⟨pr + 1, false, derIdx false [child], ty, px.take i, [child], true⟩
  | b :: bs =>
    if isWildStart b then .error .conflict
    else
      .ok ⟨pr + 1, false, derIdx false [child, buildChain (b :: bs)], ty,
           px.take i, [child, buildChain (b :: bs)], false⟩

/-- Modelled from the spec (§4.1 step 3): attach a fresh wildcard chain as
the single wildcard child of a node that has no children yet. -/
def attachWild (pr : Nat) (ty : NodeType) (px : List Char) (ep : Bool)
    (tail : List Char) : Except InsertError Node :=
  .ok ⟨pr + 1, true, [], ty, px, [buildChain tail], ep⟩

/-- Modelled from the spec (§4.1 step 2): route a static tail among the
children, recursing (through the continuation `k`) into the child whose
first byte matches the tail's first byte and re-sorting it by priority
afterwards, or append a new child for the tail.  `acc` carries the
already-visited preceding siblings. -/
def insKidsGo (k : Node → List Char → Except InsertError Node) :
    List Node → List Node → Char → List Char → Except InsertError (List Node)
  | acc, [], _, tail => .ok (acc ++ [buildChain tail])
  | acc, c :: rest, b, tail =>
    if c.pfx.headD ' ' = b then
      match k c tail with
      | .ok c2 => .ok (placeIn acc c2 ++ rest)
      | .error e => .error e
    else insKidsGo k (acc ++ [c]) rest b tail

/-- The node type a wildcard segment introduces: `CatchAll` for `*name`,
`Param` for `:name`. -/
def wildTy (isCatch : Bool) : NodeType :=
  if isCatch then .catchAll else .param

/-- Modelled from the spec (§4.1 step 3): insertion arriving at the
existing wildcard child of a node (whose other fields are passed through)
with a wildcard segment.  The segment must agree with the wildcard child
in kind and name, otherwise the position is conflictingly occupied; on
agreement the insertion descends below the wildcard child (or terminates
at it). -/
def insWildGo (k : Node → List Char → Except InsertError Node)
    (pr : Nat) (idx : List Char) (ty : NodeType) (px : List Char) (ep : Bool) :
    Node → Bool → List Char → Except InsertError Node
  | ⟨wpr, wwc, widx, wty, wpx, wcs, wep⟩, isCatch, bs =>
    if (wty = wildTy isCatch) ∧ wpx = bs.takeWhile (· ≠ '/') then
      match bs.dropWhile (· ≠ '/') with
      | [] =>
        .ok ⟨pr + 1, true, idx, ty, px, [⟨wpr + 1, wwc, widx, wty, wpx, wcs, true⟩], ep⟩
      | r :: rs =>
        match insKidsGo k [] wcs r (r :: rs) with
        | .ok cs2 => .ok ⟨pr + 1, true, idx, ty, px,
            [⟨wpr + 1, wwc, derIdx false cs2, wty, wpx, cs2, wep⟩], ep⟩
        | .error e => .error e
    else .error .conflict

/-- Modelled from the spec (§4.1): longest-common-prefix radix insertion of
the remaining pattern `p` at a node, with an explicit bound `fuel` on the
recursion depth (the top-level `ins` supplies a bound that the walk never
exhausts on trees built by insertion).
A fresh root takes the pattern directly; otherwise the common prefix with
the node's prefix is computed, the node is split when the common part is
shorter than its prefix (`splitIns`), an insertion ending exactly here
marks the node as an endpoint, and the remaining tail is routed to the
wildcard child (`insWildGo`) or among the static children (`insKidsGo`).
Conflicting occupancy (static children where a wildcard is inserted, a
wildcard child where a static tail arrives, or a differently-named or
differently-typed wildcard) is an `InsertError`.  On success the priority
of every node along the insertion path is incremented and siblings are
re-sorted by the single-step bubble. -/
def insF : Nat → Node → List Char → Except InsertError Node
  | 0, _, _ => .error .conflict
  | fuel + 1, ⟨pr, wc, idx, ty, px, cs, ep⟩, p =>
    if px.isEmpty && cs.isEmpty && !ep then
      .ok (buildInto ⟨pr, wc, idx, ty, px, cs, ep⟩ p)
    else if lcpLen p px < px.length then
      splitIns pr wc idx ty px cs ep (lcpLen p px) p
    else
      match p.drop (lcpLen p px) with
      | [] => .ok ⟨pr + 1, wc, idx, ty, px, cs, true⟩
      | b :: bs =>
        if isWildStart b then
          if wc then
            match cs with
            | [w] => insWildGo (insF fuel) pr idx ty px ep w (b = '*') bs
            | _ => .error .conflict
          else if cs.isEmpty then attachWild pr ty px ep (b :: bs)
          else .error .conflict
        else
          if wc then .error .conflict
          else
            match insKidsGo (insF fuel) [] cs b (b :: bs) with
            | .ok cs2 => .ok ⟨pr + 1, false, derIdx false cs2, ty, px, cs2, ep⟩
            | .error e => .error e

/-- The radix insertion of `p` at `n` (see `insF`).  Every level of the
walk below the root consumes at least one byte of the pattern (children
own non-empty prefixes), so `p.length + 2` bounds the recursion depth and
the fuel never runs out on trees built by insertion. -/
def ins (n : Node) (p : List Char) : Except InsertError Node :=
  insF (p.length + 2) n p

/-- Modelled from the spec (§4.1, §6): `Node::insert(pattern)`.  The
pattern is scanned for structural validity (empty wildcard name, catch-all
not final, duplicate parameter names), then radix-inserted from this node;
structural conflicts with existing nodes surface as `InsertError`. -/
def Node.insert (n : Node) (p : String) : Except InsertError Node :=
  match patErr p.toList [] with
  | some e => .error e
  | none => ins n p.toList

/-- Build a tree by inserting a whole list of patterns into an empty root. -/
def insertAll (ps : List String) : Except InsertError Node :=
  ps.foldlM Node.insert Node.start

/-- The tree built from a list of patterns, defaulting to the empty root
when insertion fails (used to state concrete instances). -/
def treeOf (ps : List String) : Node :=
  (insertAll ps).toOption.getD Node.start

mutual

/-- Modelled from the spec (§4.2): freezing produces an immutable deep
copy of identical shape.  It is a total function (infallible). -/
def freeze : Node → ConstNode
  | ⟨pr, w, idx, ty, px, cs, e⟩ => ⟨pr, w, idx, ty, px, freezeList cs, e⟩

/-- Freeze a list of children in order. -/
def freezeList : List Node → List ConstNode
  | [] => []
  | c :: cs => freeze c :: freezeList cs

end

mutual

/-- `mirrors n c` states that the frozen node `c` has exactly the shape of
the build-time node `n`: equal `priority`, `wild_child`, `indices`,
`node_type`, `prefix` and endpoint registration at every position, with
the children recursively mirrored in the same order. -/
def mirrors : Node → ConstNode → Prop
  | ⟨pr, w, idx, ty, px, cs, e⟩, ⟨pr2, w2, idx2, ty2, px2, cs2, e2⟩ =>
    pr = pr2 ∧ w = w2 ∧ idx = idx2 ∧ ty = ty2 ∧ px = px2 ∧ e = e2 ∧ mirrorsList cs cs2

/-- Pointwise `mirrors` on child lists, in order. -/
def mirrorsList : List Node → List ConstNode → Prop
  | [], [] => True
  | c :: cs, d :: ds => mirrors c d ∧ mirrorsList cs ds
  | _, _ => False

end

/-- Modelled from the spec (§4.3 step 3): dispatch the remaining path on
its first byte against `indices`, recursing (through the continuation `k`)
into the matching static child. -/
def atKidsGo (k : ConstNode → List Char → Params → Option Params) :
    List Char → List ConstNode → Char → List Char → Params → Option Params
  | i :: is, c :: cs2, b, rest, ps =>
    if i = b then k c rest ps else atKidsGo k is cs2 b rest ps
  | _, _, _, _, _ => none

/-- Modelled from the spec (§4.3): the matching walk of `ConstNode::at`,
with an explicit bound `fuel` on the recursion depth (the top-level `at`
supplies a bound that the walk never exhausts on trees built by
insertion).  A `Static`/`Root` node consumes its exact
prefix from the path; an empty remainder succeeds exactly on an endpoint
(or a `CatchAll` child with an empty remainder); otherwise the remainder
is dispatched to the wildcard child when `wild_child` is set, and by its
first byte among the static children otherwise.  A `Param` node captures
the bytes up to the next `/` or the end of the path; a `CatchAll` node
captures the entire remaining path and is terminal. -/
def atAuxF : Nat → ConstNode → List Char → Params → Option Params
  | 0, _, _, _ => none
  | fuel + 1, ⟨_, wc, idx, ty, px, cs, ep⟩, path, ps =>
    match ty with
    | .param =>
      match path.dropWhile (· ≠ '/') with
      | [] =>
        if ep then some (ps ++ [(px, path.takeWhile (· ≠ '/'))]) else none
      | r :: rs =>
        if wc then
          match cs with
          | w :: _ => atAuxF fuel w (r :: rs) (ps ++ [(px, path.takeWhile (· ≠ '/'))])
          | [] => none
        else atKidsGo (atAuxF fuel) idx cs r (r :: rs)
          (ps ++ [(px, path.takeWhile (· ≠ '/'))])
    | .catchAll => some (ps ++ [(px, path)])
    | _ =>
      if px.isPrefixOf path then
        match path.drop px.length with
        | [] =>
          if ep then some ps
          else
            match cs with
            | [w] =>
              if wc && (w.nodeType = .catchAll) then some (ps ++ [(w.pfx, [])])
              else none
            | _ => none
        | r :: rs =>
          if wc then
            match cs with
            | w :: _ => atAuxF fuel w (r :: rs) ps
            | [] => none
          else atKidsGo (atAuxF fuel) idx cs r (r :: rs) ps
      else none

/-- The matching walk started at a node (see `atAuxF`).  Every level of
the walk below the root consumes at least one byte of the path (children
own non-empty prefixes and parameter captures on instantiated paths are
non-empty), so `path.length + 2` bounds the recursion depth and the fuel
never runs out on trees built by insertion. -/
def atAux (c : ConstNode) (path : List Char) (ps : Params) : Option Params :=
  atAuxF (path.length + 2) c path ps

/-- Modelled from the spec (§4.3): `ConstNode::at(path)`, returning the
extracted `Params` on a match and `MatchError` otherwise. -/
def ConstNode.at (c : ConstNode) (path : List Char) : Except MatchError Params :=
  match atAux c path [] with
  | some ps => .ok ps
  | none => .error .notFound

/-- Convenience: build a tree from patterns, freeze it and match a path. -/
def matchOf (pats : List String) (path : String) : Except MatchError Params :=
  (freeze (treeOf pats)).at path.toList

/-- Modelled from the spec (§4.4): `Params::merge`.  Names present in both
collections take the incoming (`other`) value in place of the original
position; entries of `other` whose names are absent from `self` are
appended, preserving relative order. -/
def Params.merge (ps other : Params) : Params :=
  (ps.map fun e =>
    match other.lookup e.1 with
    | some v2 => (e.1, v2)
    | none => e)
  ++ other.filter fun e => (ps.lookup e.1).isNone

/-! ## The signature-processing logic of `Route::parse_with_attributes`
(`src/submillisecond_macros/src/route.rs`, lines 43–87).  Function inputs
are embedded as either a `self` receiver or a typed argument carrying its
pattern and the token-stream rendering of its type; the return type is
embedded by the four cases distinguished by the source. -/

/-- An input of the route function: `FnArg::Receiver` or
`FnArg::Typed { pat, ty }` with `ty` rendered to a string. -/
inductive RsFnArg where
  | receiver
  | typed (pat : String) (ty : String)
deriving DecidableEq, Repr

/-- The return type of the route function as matched at lines 75–87:
absent, an `impl Trait` type, the inferred `_` type, or any other type. -/
inductive RsReturnType where
  | default
  | implTrait
  | infer
  | other (ty : String)
deriving DecidableEq, Repr

/-- The `REQUEST_TYPES` constant (`route.rs` lines 11–15). -/
def requestTypes : List String :=
  ["::submillisecond::Request", "submillisecond::Request", "Request"]

/-- `ty.to_token_stream().to_string().replace(' ', "")` (line 53). -/
def stripSpaces (s : String) : String := String.mk (s.toList.filter (· ≠ ' '))

/-- Whether a rendered type string counts as a Request type: some entry of
`REQUEST_TYPES` is a prefix of the space-stripped rendering (lines 53–57). -/
def isRequestType (ty : String) : Bool :=
  requestTypes.any fun r => r.toList.isPrefixOf (stripSpaces ty).toList

/-- The typed error cases of the signature-processing part of
`Route::parse_with_attributes`. -/
inductive SigError where
  | selfReceiver
  | requestTwice
  | implTraitReturn
deriving DecidableEq, Repr

/-- The fields of `Route` computed from the signature alone. -/
structure RouteSig where
  extractors : List (String × String)
  reqPat : Option (String × String)
  returnTy : Option String
deriving DecidableEq, Repr

/-- The `filter_map`/`collect::<Result<_, _>>` loop over the inputs
(lines 43–69): a receiver aborts with "routes cannot take self"; the first
Request-typed input is remembered as `req_pat` and a second one aborts
with "request defined twice"; every other typed input is appended to the
extractors in declaration order. -/
def processInputs : List RsFnArg → Option (String × String) → List (String × String) →
    Except SigError (List (String × String) × Option (String × String))
  | [], req, acc => .ok (acc, req)
  | .receiver :: _, _, _ => .error .selfReceiver
  | .typed pat ty :: rest, req, acc =>
    if isRequestType ty then
      match req with
      | some _ => .error .requestTwice
      | none => processInputs rest (some (pat, ty)) acc
    else processInputs rest req (acc ++ [(pat, ty)])

/-- The return-type match (lines 75–87): `impl Trait` aborts, `_` and an
absent return type give `None`, anything else is kept. -/
def processOutput : RsReturnType → Except SigError (Option String)
  | .default => .ok none
  | .implTrait => .error .implTraitReturn
  | .infer => .ok none
  | .other ty => .ok (some ty)

/-- The signature-processing portion of `Route::parse_with_attributes`
(lines 43–87): process the inputs in order, then the return type. -/
def parseSig (inputs : List RsFnArg) (output : RsReturnType) : Except SigError RouteSig := do
  let (ex, req) ← processInputs inputs none []
  let rty ← processOutput output
  .ok ⟨ex, req, rty⟩

/-- The extractor selection the claim describes: the typed inputs whose
type is not a Request type, in declaration order. -/
def nonRequestTyped (inputs : List RsFnArg) : List (String × String) :=
  inputs.filterMap fun a =>
    match a with
    | .receiver => none
    | .typed pat ty => if isRequestType ty then none else some (pat, ty)

/-- The number of Request-typed inputs. -/
def requestCount (inputs : List RsFnArg) : Nat :=
  (inputs.filter fun a =>
    match a with
    | .receiver => false
    | .typed _ ty => isRequestType ty).length


/-! The well-founded recursive pattern-scanning definitions are unsealed so
that concrete instances evaluate definitionally. -/

/-- The head of each child's prefix, used for dispatch. -/
def hd (c : Node) : Char := c.pfx.headD ' '

/-- Modelled from the spec (§4.1, §7): the conflict predicate, a
checking-only walk mirroring the insertion path.  It is `true` exactly
when "a conflicting node type already occupies the position being
inserted": a wildcard segment arriving where static children (or a
split-off static remainder) live, a static tail arriving where the
wildcard child lives, or a wildcard segment disagreeing with the existing
wildcard child in kind or name. -/
def conflictsKidsGo (k : Node → List Char → Bool) :
    List Node → Char → List Char → Bool
  | [], _, _ => false
  | c :: rest, b, tail =>
    if c.pfx.headD ' ' = b then k c tail else conflictsKidsGo k rest b tail

/-- The conflict predicate below an existing wildcard child (see
`conflictsKidsGo`): a disagreement in kind or name is a conflict, and
otherwise the walk continues below the wildcard child. -/
def conflictsWildGo (k : Node → List Char → Bool) : Node → Bool → List Char → Bool
  | ⟨_, _, _, wty, wpx, wcs, _⟩, isCatch, bs =>
    if (wty = wildTy isCatch) ∧ wpx = bs.takeWhile (· ≠ '/') then
      match bs.dropWhile (· ≠ '/') with
      | [] => false
      | r :: rs => conflictsKidsGo k wcs r (r :: rs)
    else true

/-- The conflict predicate for inserting pattern `p` at a node (see
`conflictsKidsGo`), with the same recursion-depth bound as `insF`. -/
def conflictsF : Nat → Node → List Char → Bool
  | 0, _, _ => true
  | fuel + 1, ⟨_, wc, _, _, px, cs, ep⟩, p =>
    if px.isEmpty && cs.isEmpty && !ep then false
    else if lcpLen p px < px.length then
      match p.drop (lcpLen p px) with
      | [] => false
      | b :: _ => isWildStart b
    else
      match p.drop (lcpLen p px) with
      | [] => false
      | b :: bs =>
        if isWildStart b then
          if wc then
            match cs with
            | [w] => conflictsWildGo (conflictsF fuel) w (b = '*') bs
            | _ => true
          else if cs.isEmpty then false
          else true
        else
          if wc then true
          else conflictsKidsGo (conflictsF fuel) cs b (b :: bs)

/-- Whether inserting pattern `p` into tree `t` hits a conflicting
occupied position (see `conflictsF`). -/
def conflicts (t : Node) (p : List Char) : Bool := conflictsF (p.length + 2) t p

/-- Modelled from the spec (§5, §8): a path instantiating a pattern, with
one concrete literal segment substituted for each wildcard.  `vs` supplies
the substituted values in order: each `Param` takes a non-empty literal
containing no `/`, and a final `CatchAll` takes a non-empty remainder
(which may contain `/`).  Returns the instantiated path together with the
parameter bindings the match is expected to extract, in declaration
order. -/
def instWild (k : List Char → List (List Char) → Option (List Char × Params))
    (s : List Char) (isCatch : Bool) (name rest : List Char)
    (vs : List (List Char)) : Option (List Char × Params) :=
  if isCatch then
    match vs with
    | [v] => if rest.isEmpty && !v.isEmpty then some (s ++ v, [(name, v)]) else none
    | _ => none
  else
    match vs with
    | [] => none
    | v :: vs2 =>
      if v.isEmpty || !(v.all fun c => c != '/') then none
      else
        match k rest vs2 with
        | some (path2, ps2) => some (s ++ v ++ path2, (name, v) :: ps2)
        | none => none

def instGo : Nat → List Char → List (List Char) → Option (List Char × Params)
  | 0, _, _ => none
  | fuel + 1, p, vs =>
    match findWild p with
    | none => if vs.isEmpty then some (p, []) else none
    | some (s, isCatch, name, rest) => instWild (instGo fuel) s isCatch name rest vs

/-- The instantiation of pattern `p` by the segment values `vs` (see
`instGo`); every wildcard of the pattern consumes one byte of the path at
least, so `p.length + 1` bounds the recursion depth. -/
def inst (p : List Char) (vs : List (List Char)) : Option (List Char × Params) :=
  instGo (p.length + 1) p vs

/-- The structural well-formedness invariant maintained by insertion:
`indices` is exactly the first byte of each static child's prefix (empty
for a wildcard child); a set `wild_child` flag means the single child is a
`Param`/`CatchAll` node; an unset flag means all children are `Static`
nodes with non-empty, pairwise-distinct first bytes; and wildcard nodes
never carry the `wild_child` flag themselves on the next level (their
children are dispatched statically). -/
inductive Wf : Node → Prop where
  | mk (pr : Nat) (wc : Bool) (idx : List Char) (ty : NodeType) (px : List Char)
      (cs : List Node) (ep : Bool)
      (hidx : idx = derIdx wc cs)
      (hwild : wc = true → ∃ w, cs = [w] ∧ w.nodeType.isWild = true)
      (hstat : wc = false → ∀ c ∈ cs, c.nodeType = .static ∧ c.pfx ≠ [])
      (hnd : wc = false → (cs.map hd).Nodup)
      (hwty : ty.isWild = true → wc = false)
      (hpxf : ty.isWild = false → ∀ c ∈ px, isWildStart c = false)
      (hkids : ∀ c ∈ cs, Wf c) :
      Wf ⟨pr, wc, idx, ty, px, cs, ep⟩

/-- The conclusion bundle of the insertion well-formedness lemma. -/
def InsWfConcl (n : Node) (p : List Char) (t' : Node) : Prop :=
  Wf t' ∧ t'.nodeType = n.nodeType ∧
    (p ≠ [] → n.pfx ≠ [] → p.headD ' ' = n.pfx.headD ' ' →
      t'.pfx ≠ [] ∧ t'.pfx.headD ' ' = n.pfx.headD ' ')

/-- The wildcard-exclusivity property claimed for every node of a built
tree: a `Param`/`CatchAll` child is always an only child (in particular
each node has at most one wildcard child). -/
inductive WildChildOk : Node → Prop where
  | mk (pr : Nat) (wc : Bool) (idx : List Char) (ty : NodeType) (px : List Char)
      (cs : List Node) (ep : Bool)
      (hone : ∀ c ∈ cs, c.nodeType.isWild = true → cs = [c])
      (hkids : ∀ c ∈ cs, WildChildOk c) :
      WildChildOk ⟨pr, wc, idx, ty, px, cs, ep⟩

/-- Modelled from the spec (§4.3): the big-step matching relation on build
trees.  `Sem n path out` holds when the matching walk started at `n`
succeeds on `path` extracting the bindings `out`, with every `Param`
capture non-empty.  It mirrors the cases of the frozen walk `atAuxF`
without the fuel: a `Static`/`Root` node consumes its exact prefix, an
empty remainder succeeds on an endpoint, a non-empty remainder goes to
the wildcard child when `wild_child` is set and otherwise to the first
child whose prefix head equals the next byte; a `Param` node captures the
non-empty bytes before the next `/`; a `CatchAll` node captures the whole
remainder. -/
inductive Sem : Node → List Char → Params → Prop where
  | epEmpty (pr : Nat) (wc : Bool) (idx : List Char) (ty : NodeType) (px : List Char)
      (cs : List Node)
      (hty : ty.isWild = false) :
      Sem ⟨pr, wc, idx, ty, px, cs, true⟩ px []
  | intoWild (pr : Nat) (idx : List Char) (ty : NodeType) (px : List Char) (w : Node)
      (ws : List Node) (ep : Bool) (r : Char) (rs : List Char) (out : Params)
      (hty : ty.isWild = false) (hwty : w.nodeType.isWild = true)
      (hs : Sem w (r :: rs) out) :
      Sem ⟨pr, true, idx, ty, px, w :: ws, ep⟩ (px ++ r :: rs) out
  | intoKids (pr : Nat) (ty : NodeType) (px : List Char) (ep : Bool)
      (pre post : List Node) (c : Node) (r : Char) (rs : List Char) (out : Params)
      (hty : ty.isWild = false) (hpre : ∀ x ∈ pre, hd x ≠ r) (hc : hd c = r)
      (hcpx : c.pfx ≠ [])
      (hs : Sem c (r :: rs) out) :
      Sem ⟨pr, false, derIdx false (pre ++ c :: post), ty, px, pre ++ c :: post, ep⟩
        (px ++ r :: rs) out
  | paramEnd (pr : Nat) (wc : Bool) (idx : List Char) (px : List Char) (cs : List Node)
      (v : List Char) (hv : v ≠ []) (hvf : ∀ c ∈ v, c ≠ '/') :
      Sem ⟨pr, wc, idx, .param, px, cs, true⟩ v [(px, v)]
  | paramKids (pr : Nat) (px : List Char) (ep : Bool)
      (pre post : List Node) (c : Node) (v : List Char) (rs : List Char) (out : Params)
      (hv : v ≠ []) (hvf : ∀ x ∈ v, x ≠ '/')
      (hpre : ∀ x ∈ pre, hd x ≠ '/') (hc : hd c = '/') (hcpx : c.pfx ≠ [])
      (hs : Sem c ('/' :: rs) out) :
      Sem ⟨pr, false, derIdx false (pre ++ c :: post), .param, px, pre ++ c :: post, ep⟩
        (v ++ '/' :: rs) ((px, v) :: out)
  | caNode (pr : Nat) (wc : Bool) (idx : List Char) (px : List Char) (cs : List Node)
      (ep : Bool) (path : List Char) :
      Sem ⟨pr, wc, idx, .catchAll, px, cs, ep⟩ path [(px, path)]

unseal patErr buildChain buildWild


/-! ## Properties of `Params.merge` (claim C8) -/

theorem lookup_append_or (a b : Params) (n : List Char) :
    (a ++ b).lookup n = Option.or (a.lookup n) (b.lookup n) := by
  induction a with
  | nil => simp [Option.or]
  | cons e a ih =>
    obtain ⟨k, v⟩ := e
    by_cases h : n = k
    · simp [List.lookup, h]
    · simp only [List.cons_append, List.lookup, beq_eq_false_iff_ne.2 h]
      exact ih

theorem lookup_mapped (ps qs : Params) (n : List Char) :
    ((ps.map fun e =>
      match qs.lookup e.1 with
      | some v2 => (e.1, v2)
      | none => e).lookup n)
      = if (ps.lookup n).isSome then Option.or (qs.lookup n) (ps.lookup n) else none := by
  induction ps with
  | nil => simp [List.lookup]
  | cons e ps ih =>
    obtain ⟨k, v⟩ := e
    by_cases h : n = k
    · subst h
      cases hq : qs.lookup n <;>
        simp [List.lookup, hq, Option.or]
    · have hb : (n == k) = false := beq_eq_false_iff_ne.2 h
      cases hq : qs.lookup k <;>
        simp only [List.map_cons, List.lookup, hq, hb, ih]

theorem lookup_filtered (ps qs : Params) (n : List Char) :
    ((qs.filter fun e => (ps.lookup e.1).isNone).lookup n)
      = if (ps.lookup n).isSome then none else qs.lookup n := by
  induction qs with
  | nil => simp [List.lookup]
  | cons e qs ih =>
    obtain ⟨k, v⟩ := e
    by_cases h : n = k
    · subst h
      cases hp : ps.lookup n with
      | some v2 => simp [List.filter_cons, hp, ih, List.lookup]
      | none => simp [List.filter_cons, hp, ih, List.lookup]
    · have hb : (n == k) = false := beq_eq_false_iff_ne.2 h
      cases hp : ps.lookup k with
      | some v2 => simp [List.filter_cons, hp, ih, List.lookup, hb]
      | none => simp [List.filter_cons, hp, ih, List.lookup, hb]

theorem merge_lookup (ps qs : Params) (n : List Char) :
    (Params.merge ps qs).lookup n = Option.or (qs.lookup n) (ps.lookup n) := by
  rw [Params.merge, lookup_append_or, lookup_mapped, lookup_filtered]
  cases hp : ps.lookup n with
  | some v => cases hq : qs.lookup n <;> simp [Option.or]
  | none => cases hq : qs.lookup n <;> simp [Option.or]

theorem merge_names (ps qs : Params) :
    (Params.merge ps qs).map Prod.fst
      = ps.map Prod.fst ++ (qs.filter fun e => (ps.lookup e.1).isNone).map Prod.fst := by
  rw [Params.merge]
  simp only [List.map_append, List.map_map]
  congr 1
  apply List.map_congr_left
  intro e he
  cases hq : qs.lookup e.1 <;> simp [hq, Function.comp]

mutual

theorem mirrors_freeze_aux : (n : Node) → mirrors n (freeze n)
  | ⟨pr, w, idx, ty, px, cs, e⟩ => by
    simp only [freeze, mirrors, true_and, and_true, eq_self_iff_true]
    exact mirrorsList_freezeList_aux cs

theorem mirrorsList_freezeList_aux : (cs : List Node) → mirrorsList cs (freezeList cs)
  | [] => by simp only [freezeList, mirrorsList]
  | c :: cs => by
    simp only [freezeList, mirrorsList]
    exact ⟨mirrors_freeze_aux c, mirrorsList_freezeList_aux cs⟩

end

/-- C9: freezing a `Node` into a `ConstNode` is an infallible (total) deep
copy of identical shape: at every position the frozen node agrees on
`priority`, `wild_child`, `indices`, `node_type`, `prefix` and endpoint
registration, and its children are the frozen images of the node's
children in the same order. -/
theorem freeze_shape (n : Node) : mirrors n (freeze n) := mirrors_freeze_aux n

/-- C3: a `CatchAll` node consumes the entire remaining path, including
`/` bytes, as its parameter value and is terminal; concretely, inserting
`/files/*path` and matching `/files/a/b/c.txt` yields
`{path: "a/b/c.txt"}`. -/
theorem catchAll_consumes_rest :
    (∀ (c : ConstNode) (path : List Char) (ps : Params),
        c.nodeType = .catchAll → atAux c path ps = some (ps ++ [(c.pfx, path)]))
    ∧ matchOf ["/files/*path"] "/files/a/b/c.txt"
        = .ok [("path".toList, "a/b/c.txt".toList)] := by
  constructor
  · intro c path ps h
    obtain ⟨pr, wc, idx, ty, px, cs, ep⟩ := c
    simp only at h
    subst h
    rfl
  · rfl

/-- Witness for `catchAll_consumes_rest`: the general component applied to
a concrete catch-all node. -/
theorem catchAll_consumes_rest_witness :
    atAux ⟨1, false, [], .catchAll, "path".toList, [], true⟩ "a/b".toList []
      = some [("path".toList, "a/b".toList)] :=
  catchAll_consumes_rest.1 _ _ _ rfl

/-- C4: a `Param` segment never captures across a `/` boundary: with
`/users/:id/profile` inserted, `/users/42/profile` matches with
`{id: "42"}` and `/users/42/43/profile` fails with `MatchError`. -/
theorem param_no_slash :
    matchOf ["/users/:id/profile"] "/users/42/profile"
      = .ok [("id".toList, "42".toList)]
    ∧ matchOf ["/users/:id/profile"] "/users/42/43/profile" = .error .notFound :=
  ⟨rfl, rfl⟩

/-- Counterexample to C2: the premise tree of the claim cannot be built:
inserting `/users/me` and then `/users/:id` fails with
`InsertError::conflict` (a wildcard child may not be added where static
children exist), and matching `/users/me` against the tree resulting from
that failed insertion sequence is a `MatchError`, not the claimed `Ok`. -/
theorem static_param_sibling_conflict :
    insertAll ["/users/me", "/users/:id"] = .error .conflict
    ∧ matchOf ["/users/me", "/users/:id"] "/users/me" = .error .notFound :=
  ⟨rfl, rfl⟩

/-- C2 (amended): a wildcard child never coexists with static siblings, so
the static-before-wildcard tie-break never arises: inserting `/users/me`
and `/users/:id` into one tree fails with `InsertError::conflict` in
either order, while each pattern alone matches as expected (`/users/me`
with empty `Params`, `/users/42` with `{id: "42"}`). -/
theorem static_param_exclusive :
    insertAll ["/users/me", "/users/:id"] = .error .conflict
    ∧ insertAll ["/users/:id", "/users/me"] = .error .conflict
    ∧ matchOf ["/users/me"] "/users/me" = .ok []
    ∧ matchOf ["/users/:id"] "/users/42" = .ok [("id".toList, "42".toList)] :=
  ⟨rfl, rfl, rfl, rfl⟩

/-- C8: `Params::merge` concatenates two parameter collections: for every
name, the looked-up value is the other collection's when present there and
the original otherwise; non-conflicting entries keep their relative order
(the original names first, then the incoming names not present in the
original); and merging `{id: "1"}` with `{id: "2", name: "x"}` yields
`{id: "2", name: "x"}`. -/
theorem params_merge_spec :
    (∀ (ps qs : Params) (n : List Char),
        (Params.merge ps qs).lookup n = Option.or (qs.lookup n) (ps.lookup n))
    ∧ (∀ ps qs : Params,
        (Params.merge ps qs).map Prod.fst
          = ps.map Prod.fst
            ++ (qs.filter fun e => (ps.lookup e.1).isNone).map Prod.fst)
    ∧ Params.merge [("id".toList, "1".toList)]
        [("id".toList, "2".toList), ("name".toList, "x".toList)]
      = [("id".toList, "2".toList), ("name".toList, "x".toList)] :=
  ⟨merge_lookup, merge_names, rfl⟩



/-! ## Properties of the signature processing (claim C10) -/

theorem exceptIsOk_ok {ε α : Type} (v : α) : (@Except.ok ε α v).isOk = true := rfl

theorem exceptIsOk_error {ε α : Type} (e : ε) : (@Except.error ε α e).isOk = false := rfl

theorem processInputs_receiver (inputs : List RsFnArg) (req : Option (String × String))
    (acc : List (String × String)) (h : RsFnArg.receiver ∈ inputs) :
    (processInputs inputs req acc).isOk = false := by
  induction inputs generalizing req acc with
  | nil => simp at h
  | cons a rest ih =>
    cases a with
    | receiver => simp [processInputs, exceptIsOk_error, exceptIsOk_ok]
    | typed pat ty =>
      have hr : RsFnArg.receiver ∈ rest := by simpa using h
      by_cases hq : isRequestType ty
      · cases req with
        | some _ => simp [processInputs, hq, exceptIsOk_error, exceptIsOk_ok]
        | none => simpa [processInputs, hq, exceptIsOk_error, exceptIsOk_ok] using ih _ _ hr
      · simpa [processInputs, hq, exceptIsOk_error, exceptIsOk_ok] using ih _ _ hr

theorem processInputs_twice (inputs : List RsFnArg) (req : Option (String × String))
    (acc : List (String × String))
    (h : 2 ≤ (if req.isSome then 1 else 0) + requestCount inputs) :
    (processInputs inputs req acc).isOk = false := by
  induction inputs generalizing req acc with
  | nil => cases req <;> simp [requestCount] at h
  | cons a rest ih =>
    cases a with
    | receiver => simp [processInputs, exceptIsOk_error, exceptIsOk_ok]
    | typed pat ty =>
      by_cases hq : isRequestType ty
      · cases req with
        | some _ => simp [processInputs, hq, exceptIsOk_error, exceptIsOk_ok]
        | none =>
          refine Eq.trans ?_ (ih (some (pat, ty)) acc ?_)
          · simp [processInputs, hq, exceptIsOk_error, exceptIsOk_ok]
          · simp [requestCount, hq] at h ⊢
            omega
      · refine Eq.trans ?_ (ih req (acc ++ [(pat, ty)]) ?_)
        · simp [processInputs, hq, exceptIsOk_error, exceptIsOk_ok]
        · simp [requestCount, hq] at h ⊢
          omega

theorem processInputs_extractors (inputs : List RsFnArg) (req : Option (String × String))
    (acc ex : List (String × String)) (r : Option (String × String))
    (h : processInputs inputs req acc = .ok (ex, r)) :
    ex = acc ++ nonRequestTyped inputs := by
  induction inputs generalizing req acc with
  | nil =>
    simp [processInputs, exceptIsOk_error, exceptIsOk_ok] at h
    simp [nonRequestTyped, h.1.symm]
  | cons a rest ih =>
    cases a with
    | receiver => simp [processInputs, exceptIsOk_error, exceptIsOk_ok] at h
    | typed pat ty =>
      by_cases hq : isRequestType ty
      · cases req with
        | some _ => simp [processInputs, hq, exceptIsOk_error, exceptIsOk_ok] at h
        | none =>
          simp only [processInputs] at h
          simp only [hq, if_true] at h
          have := ih _ _ h
          simpa [nonRequestTyped, hq] using this
      · simp only [processInputs] at h
        simp only [hq, if_false, Bool.false_eq_true] at h
        have := ih _ _ h
        simp [nonRequestTyped, hq, this]

theorem processInputs_ok (inputs : List RsFnArg) (req : Option (String × String))
    (acc : List (String × String)) (hrec : RsFnArg.receiver ∉ inputs)
    (hcnt : (if req.isSome then 1 else 0) + requestCount inputs ≤ 1) :
    (processInputs inputs req acc).isOk = true := by
  induction inputs generalizing req acc with
  | nil => simp [processInputs, exceptIsOk_error, exceptIsOk_ok]
  | cons a rest ih =>
    cases a with
    | receiver => exact absurd (List.mem_cons_self _ _) hrec
    | typed pat ty =>
      have hrec2 : RsFnArg.receiver ∉ rest := fun hh => hrec (List.mem_cons_of_mem _ hh)
      by_cases hq : isRequestType ty
      · cases req with
        | some _ =>
          exfalso
          have hc : requestCount (RsFnArg.typed pat ty :: rest) = requestCount rest + 1 := by
            simp [requestCount, hq]
          rw [hc] at hcnt
          simp at hcnt
        | none =>
          refine Eq.trans ?_ (ih (some (pat, ty)) acc hrec2 ?_)
          · simp [processInputs, hq, exceptIsOk_error, exceptIsOk_ok]
          · have hc : requestCount (RsFnArg.typed pat ty :: rest) = requestCount rest + 1 := by
              simp [requestCount, hq]
            rw [hc] at hcnt
            simp at hcnt ⊢
            omega
      · refine Eq.trans ?_ (ih req (acc ++ [(pat, ty)]) hrec2 ?_)
        · simp [processInputs, hq, exceptIsOk_error, exceptIsOk_ok]
        · have hc : requestCount (RsFnArg.typed pat ty :: rest) = requestCount rest := by
            simp [requestCount, hq]
          rw [hc] at hcnt
          exact hcnt

/-- C10: `Route::parse_with_attributes` rejects malformed signatures with a
typed error rather than proceeding: a `self` receiver, a second
Request-typed input, or an `impl Trait` return type each force an error
(and those are the only signature errors); on success the extractors are
exactly the non-Request-typed inputs in declaration order. -/
theorem parse_with_attributes_sig :
    (∀ (inputs : List RsFnArg) (out : RsReturnType),
        RsFnArg.receiver ∈ inputs → (parseSig inputs out).isOk = false)
    ∧ (∀ (inputs : List RsFnArg) (out : RsReturnType),
        2 ≤ requestCount inputs → (parseSig inputs out).isOk = false)
    ∧ (∀ inputs : List RsFnArg, (parseSig inputs .implTrait).isOk = false)
    ∧ (∀ (inputs : List RsFnArg) (out : RsReturnType) (sig : RouteSig),
        parseSig inputs out = .ok sig → sig.extractors = nonRequestTyped inputs)
    ∧ (∀ (inputs : List RsFnArg) (out : RsReturnType),
        RsFnArg.receiver ∉ inputs → requestCount inputs ≤ 1 → out ≠ .implTrait →
        (parseSig inputs out).isOk = true) := by
  refine ⟨?_, ?_, ?_, ?_, ?_⟩
  · intro inputs out h
    have := processInputs_receiver inputs none [] h
    cases hp : processInputs inputs none [] with
    | error e => simp [parseSig, hp, bind, Except.bind, Except.isOk, Except.toBool]
    | ok v =>
      rw [hp, exceptIsOk_ok] at this
      exact absurd this (by simp)
  · intro inputs out h
    have := processInputs_twice inputs none [] (by simpa using h)
    cases hp : processInputs inputs none [] with
    | error e => simp [parseSig, hp, bind, Except.bind, Except.isOk, Except.toBool]
    | ok v =>
      rw [hp, exceptIsOk_ok] at this
      exact absurd this (by simp)
  · intro inputs
    cases hp : processInputs inputs none [] with
    | error e => simp [parseSig, hp, bind, Except.bind, Except.isOk, Except.toBool]
    | ok v => simp [parseSig, hp, processOutput, bind, Except.bind, Except.isOk, Except.toBool]
  · intro inputs out sig h
    cases hp : processInputs inputs none [] with
    | error e => simp [parseSig, hp, bind, Except.bind, Except.isOk, Except.toBool] at h
    | ok v =>
      obtain ⟨ex, r⟩ := v
      cases ho : processOutput out with
      | error e => simp [parseSig, hp, ho, bind, Except.bind] at h
      | ok rty =>
        simp [parseSig, hp, ho, bind, Except.bind] at h
        have := processInputs_extractors inputs none [] ex r hp
        rw [← h]
        simpa using this
  · intro inputs out hrec hcnt hout
    have := processInputs_ok inputs none [] hrec (by simpa using hcnt)
    cases hp : processInputs inputs none [] with
    | error e =>
      rw [hp, exceptIsOk_error] at this
      exact absurd this (by simp)
    | ok v =>
      obtain ⟨ex, r⟩ := v
      cases out with
      | implTrait => exact absurd rfl hout
      | default => simp [parseSig, hp, processOutput, bind, Except.bind, Except.isOk, Except.toBool]
      | infer => simp [parseSig, hp, processOutput, bind, Except.bind, Except.isOk, Except.toBool]
      | other ty => simp [parseSig, hp, processOutput, bind, Except.bind, Except.isOk, Except.toBool]

/-- Witness for `parse_with_attributes_sig` at a concrete signature: an
extractor argument, a Request argument and a concrete return type. -/
theorem parse_with_attributes_sig_witness :
    (parseSig [RsFnArg.typed "params" "Params", RsFnArg.typed "req" "Request"]
        (RsReturnType.other "String")).isOk = true :=
  parse_with_attributes_sig.2.2.2.2
    [RsFnArg.typed "params" "Params", RsFnArg.typed "req" "Request"]
    (RsReturnType.other "String") (by decide) (by decide) (by decide)

/-! ## Structural invariants of insertion (claims C5 and C6) -/

theorem placeIn_perm (acc : List Node) (x : Node) :
    List.Perm (placeIn acc x) (x :: acc) := by
  induction acc with
  | nil => simp [placeIn]
  | cons y ys ih =>
    rw [placeIn]
    by_cases h : y.priority < x.priority
    · simp [h]
    · simp only [h, if_false]
      exact (ih.cons y).trans (List.Perm.swap x y ys)

theorem lcpLen_le_left (p q : List Char) : lcpLen p q ≤ p.length := by
  induction p generalizing q with
  | nil => simp [lcpLen]
  | cons a as ih =>
    cases q with
    | nil => simp [lcpLen]
    | cons b bs =>
      rw [lcpLen]
      by_cases h : a = b
      · rw [if_pos h]
        have := ih bs
        simp only [List.length_cons]
        omega
      · rw [if_neg h]
        simp

theorem lcpLen_le_right (p q : List Char) : lcpLen p q ≤ q.length := by
  induction p generalizing q with
  | nil => simp [lcpLen]
  | cons a as ih =>
    cases q with
    | nil => simp [lcpLen]
    | cons b bs =>
      rw [lcpLen]
      by_cases h : a = b
      · rw [if_pos h]
        have := ih bs
        simp only [List.length_cons]
        omega
      · rw [if_neg h]
        simp

theorem lcpLen_head_ne (p q : List Char) (hp : p ≠ []) (hq : q ≠ [])
    (h : p.headD ' ' = q.headD ' ') : 1 ≤ lcpLen p q := by
  cases p with
  | nil => exact absurd rfl hp
  | cons a as =>
    cases q with
    | nil => exact absurd rfl hq
    | cons b bs =>
      simp at h
      rw [lcpLen, if_pos h]
      omega

theorem lcpLen_take_isPrefix (p q : List Char) :
    (q.take (lcpLen p q)).isPrefixOf p = true := by
  induction p generalizing q with
  | nil => cases q <;> simp [lcpLen, List.isPrefixOf]
  | cons a as ih =>
    cases q with
    | nil => simp [lcpLen, List.isPrefixOf]
    | cons b bs =>
      rw [lcpLen]
      by_cases h : a = b
      · rw [if_pos h]
        simpa [List.isPrefixOf, h] using ih bs
      · rw [if_neg h]
        simp [List.isPrefixOf]

theorem lcpLen_drop_head_ne (p q : List Char) (hp : lcpLen p q < p.length)
    (hq : lcpLen p q < q.length) :
    (p.drop (lcpLen p q)).headD ' ' ≠ (q.drop (lcpLen p q)).headD ' ' := by
  induction p generalizing q with
  | nil => simp at hp
  | cons a as ih =>
    cases q with
    | nil => simp at hq
    | cons b bs =>
      by_cases h : a = b
      · rw [lcpLen, if_pos h] at hp hq ⊢
        simp only [List.drop_succ_cons]
        exact ih bs (by simpa using hp) (by simpa using hq)
      · rw [lcpLen, if_neg h] at hp hq ⊢
        simpa using h

theorem dropWhile_headD_slash (l : List Char) (x : Char) (xs : List Char)
    (h : l.dropWhile (· ≠ '/') = x :: xs) : x = '/' := by
  induction l with
  | nil => simp at h
  | cons a as ih =>
    rw [List.dropWhile_cons] at h
    by_cases hq : a ≠ '/'
    · rw [if_pos (by simpa using hq)] at h
      exact ih h
    · rw [if_neg (by simpa using hq)] at h
      injection h with h1 h2
      simp at hq
      exact h1 ▸ hq

theorem findWild_rest_shape {p s : List Char} {b : Bool} {nm r : List Char}
    (h : findWild p = some (s, b, nm, r)) : r = [] ∨ r.headD ' ' = '/' := by
  induction p generalizing s b nm r with
  | nil => simp [findWild] at h
  | cons c cs ih =>
    by_cases hc : c = ':'
    · rw [findWild, if_pos hc] at h
      simp only [Option.some.injEq, Prod.mk.injEq] at h
      obtain ⟨hs, hb, hn, hr⟩ := h
      subst hr
      cases hw : cs.dropWhile (· ≠ '/') with
      | nil => exact Or.inl rfl
      | cons x xs =>
        right
        simpa using dropWhile_headD_slash cs x xs hw
    · by_cases hc2 : c = '*'
      · rw [findWild, if_neg hc, if_pos hc2] at h
        simp only [Option.some.injEq, Prod.mk.injEq] at h
        obtain ⟨hs, hb, hn, hr⟩ := h
        subst hr
        cases hw : cs.dropWhile (· ≠ '/') with
        | nil => exact Or.inl rfl
        | cons x xs =>
          right
          simpa using dropWhile_headD_slash cs x xs hw
      · rw [findWild, if_neg hc, if_neg hc2] at h
        cases hw : findWild cs with
        | none => rw [hw] at h; simp at h
        | some t =>
          obtain ⟨s', b', n', r'⟩ := t
          rw [hw] at h
          simp only [Option.map_some', Option.some.injEq, Prod.mk.injEq] at h
          obtain ⟨hs, hb, hn, hr⟩ := h
          subst hr
          exact ih hw

theorem findWild_static_cons {b : Char} {bs : List Char}
    (hb : isWildStart b = false) :
    findWild (b :: bs) = (findWild bs).map fun r => (b :: r.1, r.2) := by
  simp only [isWildStart, Bool.or_eq_false_iff, decide_eq_false_iff_not] at hb
  rw [findWild, if_neg hb.1, if_neg hb.2]

theorem buildWild_isWild (isCatch : Bool) (name rest : List Char) :
    (buildWild isCatch name rest).nodeType.isWild = true := by
  rw [buildWild]
  by_cases h : isCatch
  · simp [h, NodeType.isWild]
  · by_cases hr : rest.isEmpty
    · simp [h, hr, NodeType.isWild]
    · simp [h, hr, NodeType.isWild]

theorem buildChain_static {b : Char} {bs : List Char} (hb : isWildStart b = false) :
    (buildChain (b :: bs)).nodeType = .static ∧ (buildChain (b :: bs)).pfx ≠ []
      ∧ (buildChain (b :: bs)).pfx.headD ' ' = b := by
  rw [buildChain]
  cases hw : findWild (b :: bs) with
  | none => simp
  | some t =>
    obtain ⟨s, isCatch, nm, r⟩ := t
    rw [findWild_static_cons hb] at hw
    cases hw2 : findWild bs with
    | none => rw [hw2] at hw; simp at hw
    | some t2 =>
      obtain ⟨s2, b2, n2, r2⟩ := t2
      rw [hw2] at hw
      simp only [Option.map_some', Option.some.injEq, Prod.mk.injEq] at hw
      obtain ⟨hs, hcb, hn, hr⟩ := hw
      subst hs
      simp

theorem buildChain_wild {b : Char} {bs : List Char} (hb : isWildStart b = true) :
    (buildChain (b :: bs)).nodeType.isWild = true := by
  rw [buildChain]
  simp only [isWildStart, Bool.or_eq_true, decide_eq_true_eq] at hb
  cases hb with
  | inl h =>
    rw [findWild, if_pos h]
    simpa using buildWild_isWild false _ _
  | inr h =>
    by_cases hc : b = ':'
    · rw [findWild, if_pos hc]
      simpa using buildWild_isWild false _ _
    · rw [findWild, if_neg hc, if_pos h]
      simpa using buildWild_isWild true _ _

theorem findWild_none_static {p : List Char} (h : findWild p = none) :
    ∀ c ∈ p, isWildStart c = false := by
  induction p with
  | nil => intro c hc; simp at hc
  | cons a as ih =>
    intro c hc
    by_cases ha : a = ':'
    · rw [findWild, if_pos ha] at h; simp at h
    · by_cases ha2 : a = '*'
      · rw [findWild, if_neg ha, if_pos ha2] at h; simp at h
      · rw [findWild, if_neg ha, if_neg ha2] at h
        cases hw : findWild as with
        | some t => rw [hw] at h; simp at h
        | none =>
          rcases List.mem_cons.1 hc with hc | hc
          · subst hc; simp [isWildStart, ha, ha2]
          · exact ih hw c hc

theorem findWild_some_static {p s : List Char} {b : Bool} {nm r : List Char}
    (h : findWild p = some (s, b, nm, r)) : ∀ c ∈ s, isWildStart c = false := by
  induction p generalizing s b nm r with
  | nil => simp [findWild] at h
  | cons a as ih =>
    by_cases ha : a = ':'
    · rw [findWild, if_pos ha] at h
      simp only [Option.some.injEq, Prod.mk.injEq] at h
      obtain ⟨hs, _, _, _⟩ := h
      subst hs
      intro c hc; simp at hc
    · by_cases ha2 : a = '*'
      · rw [findWild, if_neg ha, if_pos ha2] at h
        simp only [Option.some.injEq, Prod.mk.injEq] at h
        obtain ⟨hs, _, _, _⟩ := h
        subst hs
        intro c hc; simp at hc
      · rw [findWild, if_neg ha, if_neg ha2] at h
        cases hw : findWild as with
        | none => rw [hw] at h; simp at h
        | some t =>
          obtain ⟨s2, b2, n2, r2⟩ := t
          rw [hw] at h
          simp only [Option.map_some', Option.some.injEq, Prod.mk.injEq] at h
          obtain ⟨hs, hb, hn, hr⟩ := h
          intro c hc
          rw [← hs] at hc
          rcases List.mem_cons.1 hc with hc | hc
          · subst hc; simp [isWildStart, ha, ha2]
          · exact ih hw c hc

theorem wf_build (k : Nat) :
    (∀ p : List Char, p.length ≤ k → Wf (buildChain p))
    ∧ ∀ (b : Bool) (nm r : List Char), r.length ≤ k →
        (r = [] ∨ r.headD ' ' = '/') → Wf (buildWild b nm r) := by
  induction k using Nat.strong_induction_on with
  | _ k ih =>
    have hq : ∀ p : List Char, p.length ≤ k → Wf (buildChain p) := by
      intro p hp
      rw [buildChain]
      split
      · rename_i hfw
        refine Wf.mk _ _ _ _ _ _ _ ?_ ?_ ?_ ?_ ?_ ?_ ?_
        · simp [derIdx]
        · simp
        · simp
        · simp
        · simp [NodeType.isWild]
        · intro _
          exact findWild_none_static hfw
        · simp
      · rename_i s isCatch nm r hw
        have hrl : r.length < p.length := findWild_rest_lt hw
        have hsh := findWild_rest_shape hw
        have hwf : Wf (buildWild isCatch nm r) := by
          cases k with
          | zero => omega
          | succ k2 =>
            exact (ih k2 (by omega)).2 isCatch nm r (by omega) hsh
        by_cases hs : s.isEmpty
        · rw [if_pos hs]
          exact hwf
        · rw [if_neg hs]
          refine Wf.mk _ _ _ _ _ _ _ ?_ ?_ ?_ ?_ ?_ ?_ ?_
          · simp [derIdx]
          · intro _
            exact ⟨buildWild isCatch nm r, rfl, buildWild_isWild _ _ _⟩
          · simp
          · simp
          · simp [NodeType.isWild]
          · intro _
            exact findWild_some_static hw
          · intro c hc
            simp at hc
            exact hc ▸ hwf
    refine ⟨hq, ?_⟩
    intro b nm r hr hsh
    rw [buildWild]
    by_cases hb : b
    · rw [if_pos hb]
      refine Wf.mk _ _ _ _ _ _ _ ?_ ?_ ?_ ?_ ?_ ?_ ?_ <;> simp [derIdx, NodeType.isWild]
    · rw [if_neg hb]
      by_cases hre : r.isEmpty
      · rw [if_pos hre]
        refine Wf.mk _ _ _ _ _ _ _ ?_ ?_ ?_ ?_ ?_ ?_ ?_ <;> simp [derIdx, NodeType.isWild]
      · rw [if_neg hre]
        have hr0 : r ≠ [] := by simpa [List.isEmpty_iff] using hre
        have hrh : r.headD ' ' = '/' := hsh.resolve_left hr0
        obtain ⟨r0, rs, hre2⟩ : ∃ r0 rs, r = r0 :: rs := by
          cases r with
          | nil => exact absurd rfl hr0
          | cons a as => exact ⟨a, as, rfl⟩
        have hr0w : isWildStart r0 = false := by
          subst hre2
          simp at hrh
          subst hrh
          decide
        have hbs := @buildChain_static r0 rs hr0w
        have hbw : Wf (buildChain r) := by
          apply hq
          omega
        refine Wf.mk _ _ _ _ _ _ _ ?_ ?_ ?_ ?_ ?_ ?_ ?_
        · simp [derIdx]
        · simp
        · intro _ c hc
          simp at hc
          subst hc
          subst hre2
          exact ⟨hbs.1, hbs.2.1⟩
        · simp
        · simp [NodeType.isWild]
        · simp [NodeType.isWild]
        · intro c hc
          simp at hc
          exact hc ▸ hbw

theorem Wf_buildChain (p : List Char) : Wf (buildChain p) :=
  (wf_build p.length).1 p le_rfl

theorem Wf_buildWild (b : Bool) (nm r : List Char) (hsh : r = [] ∨ r.headD ' ' = '/') :
    Wf (buildWild b nm r) :=
  (wf_build r.length).2 b nm r le_rfl hsh

theorem insKidsGo_cases (k : Node → List Char → Except InsertError Node)
    (b : Char) (tail : List Char) :
    ∀ (acc cs out : List Node), insKidsGo k acc cs b tail = .ok out →
      (∃ pre c post c2, cs = pre ++ c :: post ∧ (∀ x ∈ pre, hd x ≠ b) ∧ hd c = b ∧
          k c tail = .ok c2 ∧ out = placeIn (acc ++ pre) c2 ++ post)
      ∨ ((∀ x ∈ cs, hd x ≠ b) ∧ out = acc ++ cs ++ [buildChain tail]) := by
  intro acc cs
  induction cs generalizing acc with
  | nil =>
    intro out h
    rw [insKidsGo] at h
    simp only [Except.ok.injEq] at h
    right
    exact ⟨by simp, by simpa using h.symm⟩
  | cons c rest ih =>
    intro out h
    rw [insKidsGo] at h
    by_cases hc : c.pfx.headD ' ' = b
    · rw [if_pos hc] at h
      cases hk : k c tail with
      | error e => rw [hk] at h; simp at h
      | ok c2 =>
        rw [hk] at h
        simp only [Except.ok.injEq] at h
        left
        exact ⟨[], c, rest, c2, by simp, by simp, hc, hk, by simpa using h.symm⟩
    · rw [if_neg hc] at h
      rcases ih (acc ++ [c]) out h with
        ⟨pre, c', post, c2, hcs, hpre, hc', hk, hout⟩ | ⟨hall, hout⟩
      · left
        refine ⟨c :: pre, c', post, c2, by simp [hcs], ?_, hc', hk, ?_⟩
        · intro x hx
          rcases List.mem_cons.1 hx with hx | hx
          · exact hx ▸ hc
          · exact hpre x hx
        · rw [hout]
          simp
      · right
        refine ⟨?_, ?_⟩
        · intro x hx
          rcases List.mem_cons.1 hx with hx | hx
          · exact hx ▸ hc
          · exact hall x hx
        · rw [hout]
          simp

theorem kids_update_wf (fuel : Nat)
    (IH : ∀ (c : Node) (p : List Char) (t' : Node), insF fuel c p = .ok t' → Wf c →
      c.nodeType.isWild = false → InsWfConcl c p t')
    (cs : List Node) (b : Char) (bs : List Char) (cs2 : List Node)
    (hb : isWildStart b = false)
    (h : insKidsGo (insF fuel) [] cs b (b :: bs) = .ok cs2)
    (hstat : ∀ c ∈ cs, c.nodeType = .static ∧ c.pfx ≠ [])
    (hnd : (cs.map hd).Nodup)
    (hkids : ∀ c ∈ cs, Wf c) :
    (∀ c ∈ cs2, c.nodeType = .static ∧ c.pfx ≠ []) ∧ (cs2.map hd).Nodup
      ∧ ∀ c ∈ cs2, Wf c := by
  rcases insKidsGo_cases (insF fuel) b (b :: bs) [] cs cs2 h with
    ⟨pre, c, post, c2, hcs, hpre, hc, hk, hout⟩ | ⟨hall, hout⟩
  · have hcmem : c ∈ cs := hcs ▸ List.mem_append_right pre (List.mem_cons_self c post)
    have hcw : Wf c := hkids c hcmem
    have hcst := hstat c hcmem
    have hihc := IH c (b :: bs) c2 hk hcw (by rw [hcst.1]; rfl)
    have hc2px : c2.pfx ≠ [] ∧ c2.pfx.headD ' ' = c.pfx.headD ' ' :=
      hihc.2.2 (by simp) hcst.2 (by simpa [hd] using hc.symm)
    have hperm : List.Perm cs2 ((c2 :: pre) ++ post) := by
      rw [hout]
      simp only [List.nil_append]
      exact (placeIn_perm pre c2).append_right post
    have hmem : ∀ g ∈ cs2, g = c2 ∨ g ∈ pre ∨ g ∈ post := by
      intro g hg
      have := hperm.mem_iff.1 hg
      simp at this
      tauto
    refine ⟨?_, ?_, ?_⟩
    · intro g hg
      rcases hmem g hg with hg2 | hg2 | hg2
      · subst hg2
        exact ⟨hihc.2.1.trans hcst.1, hc2px.1⟩
      · exact hstat g (hcs ▸ List.mem_append_left _ hg2)
      · exact hstat g (hcs ▸ List.mem_append_right _ (List.mem_cons_of_mem _ hg2))
    · have h1 : List.Perm (cs2.map hd) (((c2 :: pre) ++ post).map hd) := hperm.map hd
      have h2 : ((c2 :: pre) ++ post).map hd = hd c2 :: (pre.map hd ++ post.map hd) := by
        simp
      have h3 : hd c2 = hd c := hc2px.2
      have h4 : List.Perm (hd c :: (pre.map hd ++ post.map hd)) ((pre ++ c :: post).map hd) := by
        simp only [List.map_append, List.map_cons]
        exact (List.perm_middle).symm
      have h5 : List.Perm (cs2.map hd) (cs.map hd) := by
        rw [hcs]
        exact ((h1.trans (h2 ▸ List.Perm.refl _)).trans (h3 ▸ h4))
      exact h5.nodup_iff.2 hnd
    · intro g hg
      rcases hmem g hg with hg2 | hg2 | hg2
      · exact hg2 ▸ hihc.1
      · exact hkids g (hcs ▸ List.mem_append_left _ hg2)
      · exact hkids g (hcs ▸ List.mem_append_right _ (List.mem_cons_of_mem _ hg2))
  · have hbc := @buildChain_static b bs hb
    have hbcw := Wf_buildChain (b :: bs)
    refine ⟨?_, ?_, ?_⟩
    · intro g hg
      rw [hout] at hg
      simp at hg
      rcases hg with hg | hg
      · exact hstat g hg
      · exact hg ▸ ⟨hbc.1, hbc.2.1⟩
    · rw [hout]
      simp only [List.nil_append, List.map_append, List.map_cons, List.map_nil]
      rw [List.nodup_append]
      refine ⟨hnd, by simp, ?_⟩
      intro a ha bmem
      simp only [List.mem_singleton] at bmem
      have hb2 : hd (buildChain (b :: bs)) = b := hbc.2.2
      rw [hb2] at bmem
      subst bmem
      simp only [List.mem_map] at ha
      obtain ⟨x, hx, hxa⟩ := ha
      exact hall x hx hxa
    · intro g hg
      rw [hout] at hg
      simp at hg
      rcases hg with hg | hg
      · exact hkids g hg
      · exact hg ▸ hbcw

theorem take_head (l : List Char) (i : Nat) (h1 : 1 ≤ i) (h0 : l ≠ []) :
    l.take i ≠ [] ∧ (l.take i).headD ' ' = l.headD ' ' := by
  cases l with
  | nil => exact absurd rfl h0
  | cons a as =>
    cases i with
    | zero => omega
    | succ j => simp

theorem drop_ne_nil_of_lt (l : List Char) (i : Nat) (h : i < l.length) :
    l.drop i ≠ [] := by
  intro hh
  have := List.length_drop i l
  rw [hh] at this
  simp at this
  omega

theorem lt_length_of_drop_cons {l : List Char} {i : Nat} {b : Char} {bs : List Char}
    (h : l.drop i = b :: bs) : i < l.length := by
  by_contra hc
  rw [List.drop_eq_nil_of_le (by omega)] at h
  simp at h

set_option maxHeartbeats 1000000 in
theorem insF_wf : ∀ (fuel : Nat) (n : Node) (p : List Char) (t' : Node),
    insF fuel n p = .ok t' → Wf n → n.nodeType.isWild = false → InsWfConcl n p t' := by
  intro fuel
  induction fuel with
  | zero =>
    intro n p t' h _ _
    rw [insF] at h
    simp at h
  | succ fuel ih =>
    intro n p t' h hwf hty
    obtain ⟨pr, wc, idx, ty, px, cs, ep⟩ := n
    simp only at hty
    cases hwf with
    | mk _ _ _ _ _ _ _ hidx hwild hstat hnd hwty hpxf hkids =>
    simp only [insF] at h
    by_cases hfresh : (px.isEmpty && cs.isEmpty && !ep) = true
    · rw [if_pos hfresh] at h
      simp only [Except.ok.injEq] at h
      subst h
      simp only [Bool.and_eq_true, Bool.not_eq_true', List.isEmpty_iff] at hfresh
      obtain ⟨⟨hpx, hcs⟩, hep⟩ := hfresh
      subst hpx hcs hep
      have hwc : wc = false := by
        cases hwcb : wc with
        | false => rfl
        | true =>
          obtain ⟨w, hw, _⟩ := hwild hwcb
          simp at hw
      subst hwc
      rw [buildInto]
      split
      · rename_i hfw
        refine ⟨?_, rfl, ?_⟩
        · refine Wf.mk _ _ _ _ _ _ _ hidx ?_ ?_ ?_ ?_ ?_ ?_
          · intro hh; simp at hh
          · intro _ c hc; simp at hc
          · intro _; simp
          · intro _; rfl
          · intro _
            exact findWild_none_static hfw
          · intro c hc; simp at hc
        · intro _ h2 _
          exact absurd rfl h2
      · rename_i s isCatch nm r hw
        refine ⟨?_, rfl, ?_⟩
        · refine Wf.mk _ _ _ _ _ _ _ ?_ ?_ ?_ ?_ ?_ ?_ ?_
          · simp [derIdx]
          · intro _
            exact ⟨_, rfl, buildWild_isWild _ _ _⟩
          · intro hh; simp at hh
          · intro hh; simp at hh
          · intro hh
            rw [hty] at hh
            simp at hh
          · intro _
            exact findWild_some_static hw
          · intro c hc
            simp at hc
            subst hc
            exact Wf_buildWild _ _ _ (findWild_rest_shape hw)
        · intro _ h2 _
          exact absurd rfl h2
    · rw [if_neg hfresh] at h
      by_cases hsplit : lcpLen p px < px.length
      · rw [if_pos hsplit] at h
        simp only [splitIns] at h
        have hpxd : px.drop (lcpLen p px) ≠ [] := drop_ne_nil_of_lt px _ hsplit
        have hchildwf :
            Wf ⟨pr, wc, idx, .static, px.drop (lcpLen p px), cs, ep⟩ := by
          refine Wf.mk _ _ _ _ _ _ _ hidx hwild hstat hnd ?_ ?_ hkids
          · intro hh
            simp [NodeType.isWild] at hh
          · intro _ c hc
            exact hpxf hty c (List.drop_subset _ _ hc)
        cases hdrop2 : p.drop (lcpLen p px) with
        | nil =>
          rw [hdrop2] at h
          simp only [Except.ok.injEq] at h
          subst h
          refine ⟨?_, rfl, ?_⟩
          · refine Wf.mk _ _ _ _ _ _ _ rfl ?_ ?_ ?_ ?_ ?_ ?_
            · intro hh; simp at hh
            · intro _ c hc
              simp at hc
              subst hc
              exact ⟨rfl, hpxd⟩
            · intro _; simp
            · intro _; rfl
            · intro _ c hc
              exact hpxf hty c (List.take_subset _ _ hc)
            · intro c hc
              simp at hc
              subst hc
              exact hchildwf
          · intro hp0 hpx0 hheads
            have h1 : 1 ≤ lcpLen p px := lcpLen_head_ne p px hp0 hpx0 hheads
            exact take_head px _ h1 hpx0
        | cons b2 bs2 =>
          rw [hdrop2] at h
          simp only [] at h
          by_cases hw2 : isWildStart b2 = true
          · rw [if_pos hw2] at h
            simp at h
          · rw [if_neg hw2] at h
            simp only [Except.ok.injEq] at h
            subst h
            have hbc := @buildChain_static b2 bs2 (by simpa using hw2)
            have hplen : lcpLen p px < p.length := lt_length_of_drop_cons hdrop2
            have hne : hd ⟨pr, wc, idx, .static, px.drop (lcpLen p px), cs, ep⟩
                ≠ hd (buildChain (b2 :: bs2)) := by
              have := lcpLen_drop_head_ne p px hplen hsplit
              have hpd : (p.drop (lcpLen p px)).headD ' ' = b2 := by
                rw [hdrop2]; rfl
              simp only [hd, hbc.2.2]
              rw [← hpd]
              exact fun hh => this hh.symm
            refine ⟨?_, rfl, ?_⟩
            · refine Wf.mk _ _ _ _ _ _ _ rfl ?_ ?_ ?_ ?_ ?_ ?_
              · intro hh; simp at hh
              · intro _ c hc
                simp at hc
                rcases hc with hc | hc <;> subst hc
                · exact ⟨rfl, hpxd⟩
                · exact ⟨hbc.1, hbc.2.1⟩
              · intro _
                simp only [List.map_cons, List.map_nil, List.nodup_cons]
                exact ⟨by simpa using hne, by simp⟩
              · intro _; rfl
              · intro _ c hc
                exact hpxf hty c (List.take_subset _ _ hc)
              · intro c hc
                simp at hc
                rcases hc with hc | hc <;> subst hc
                · exact hchildwf
                · exact Wf_buildChain _
            · intro hp0 hpx0 hheads
              have h1 : 1 ≤ lcpLen p px := lcpLen_head_ne p px hp0 hpx0 hheads
              exact take_head px _ h1 hpx0
      · rw [if_neg hsplit] at h
        cases hdrop : p.drop (lcpLen p px) with
        | nil =>
          rw [hdrop] at h
          simp only [Except.ok.injEq] at h
          subst h
          refine ⟨?_, rfl, ?_⟩
          · exact Wf.mk _ _ _ _ _ _ _ hidx hwild hstat hnd hwty hpxf hkids
          · intro _ h2 _
            exact ⟨h2, rfl⟩
        | cons b bs =>
          rw [hdrop] at h
          simp only [] at h
          by_cases hbw : isWildStart b = true
          · rw [if_pos hbw] at h
            by_cases hwc : wc = true
            · rw [if_pos hwc] at h
              obtain ⟨w, hcseq, hwty2⟩ := hwild hwc
              subst hcseq
              subst hwc
              simp only [] at h
              have hwfw : Wf w := hkids w (by simp)
              obtain ⟨wpr, wwc, widx, wty, wpx, wcs, wep⟩ := w
              simp only at hwty2
              cases hwfw with
              | mk _ _ _ _ _ _ _ hwidx hwwild hwstat hwnd hwwty hwpxf hwkids =>
              have hwwc : wwc = false := hwwty hwty2
              subst hwwc
              have hidx0 : idx = [] := by simpa [derIdx] using hidx
              simp only [insWildGo] at h
              split at h
              · cases hrest : bs.dropWhile (· ≠ '/') with
                | nil =>
                  rw [hrest] at h
                  simp only [Except.ok.injEq] at h
                  subst h
                  refine ⟨?_, rfl, ?_⟩
                  · refine Wf.mk _ _ _ _ _ _ _ ?_ ?_ ?_ ?_ ?_ ?_ ?_
                    · rw [hidx0]; simp [derIdx]
                    · intro _
                      exact ⟨_, rfl, hwty2⟩
                    · intro hh; simp at hh
                    · intro hh; simp at hh
                    · intro hh
                      rw [hty] at hh
                      simp at hh
                    · intro _
                      exact hpxf hty
                    · intro c hc
                      simp at hc
                      subst hc
                      refine Wf.mk _ _ _ _ _ _ _ hwidx hwwild hwstat hwnd hwwty hwpxf hwkids
                  · intro _ h2 _
                    exact ⟨h2, rfl⟩
                | cons r rs =>
                  rw [hrest] at h
                  simp only [] at h
                  have hr : r = '/' := dropWhile_headD_slash bs r rs hrest
                  subst hr
                  cases hins : insKidsGo (insF fuel) [] wcs '/' ('/' :: rs) with
                  | error e => rw [hins] at h; simp at h
                  | ok cs2 =>
                    rw [hins] at h
                    simp only [Except.ok.injEq] at h
                    subst h
                    have hk := kids_update_wf fuel ih wcs '/' rs cs2 (by decide)
                      hins (hwstat rfl) (hwnd rfl) hwkids
                    refine ⟨?_, rfl, ?_⟩
                    · refine Wf.mk _ _ _ _ _ _ _ ?_ ?_ ?_ ?_ ?_ ?_ ?_
                      · rw [hidx0]; simp [derIdx]
                      · intro _
                        exact ⟨_, rfl, hwty2⟩
                      · intro hh; simp at hh
                      · intro hh; simp at hh
                      · intro hh
                        rw [hty] at hh
                        simp at hh
                      · intro _
                        exact hpxf hty
                      · intro c hc
                        simp at hc
                        subst hc
                        refine Wf.mk _ _ _ _ _ _ _ rfl ?_ ?_ ?_ ?_ ?_ ?_
                        · intro hh; simp at hh
                        · intro _
                          exact hk.1
                        · intro _
                          exact hk.2.1
                        · intro _; rfl
                        · intro hh
                          rw [hwty2] at hh
                          simp at hh
                        · exact hk.2.2
                    · intro _ h2 _
                      exact ⟨h2, rfl⟩
              · simp at h
            · rw [if_neg hwc] at h
              by_cases hemp : cs.isEmpty = true
              · rw [if_pos hemp] at h
                rw [attachWild] at h
                simp only [Except.ok.injEq] at h
                subst h
                refine ⟨?_, rfl, ?_⟩
                · refine Wf.mk _ _ _ _ _ _ _ ?_ ?_ ?_ ?_ ?_ ?_ ?_
                  · simp [derIdx]
                  · intro _
                    exact ⟨_, rfl, buildChain_wild hbw⟩
                  · intro hh; simp at hh
                  · intro hh; simp at hh
                  · intro hh
                    rw [hty] at hh
                    simp at hh
                  · intro _
                    exact hpxf hty
                  · intro c hc
                    simp at hc
                    subst hc
                    exact Wf_buildChain _
                · intro _ h2 _
                  exact ⟨h2, rfl⟩
              · rw [if_neg hemp] at h
                simp at h
          · rw [if_neg hbw] at h
            by_cases hwc : wc = true
            · rw [if_pos hwc] at h
              simp at h
            · rw [if_neg hwc] at h
              cases hins : insKidsGo (insF fuel) [] cs b (b :: bs) with
              | error e => rw [hins] at h; simp at h
              | ok cs2 =>
                rw [hins] at h
                simp only [Except.ok.injEq] at h
                subst h
                have hwc0 : wc = false := by simpa using hwc
                subst hwc0
                have hk := kids_update_wf fuel ih cs b bs cs2 (by simpa using hbw)
                  hins (hstat rfl) (hnd rfl) hkids
                refine ⟨?_, rfl, ?_⟩
                · refine Wf.mk _ _ _ _ _ _ _ rfl ?_ ?_ ?_ ?_ ?_ ?_
                  · intro hh; simp at hh
                  · intro _
                    exact hk.1
                  · intro _
                    exact hk.2.1
                  · intro _; rfl
                  · intro _
                    exact hpxf hty
                  · exact hk.2.2
                · intro _ h2 _
                  exact ⟨h2, rfl⟩

theorem wf_wildChildOk : ∀ n, Wf n → WildChildOk n := by
  intro n hwf
  induction hwf with
  | mk pr wc idx ty px cs ep hidx hwild hstat hnd hwty hpxf hkids ih =>
    refine WildChildOk.mk _ _ _ _ _ _ _ ?_ ?_
    · intro c hc hcw
      cases hwc : wc with
      | true =>
        obtain ⟨w, hw, _⟩ := hwild hwc
        subst hw
        simp at hc
        subst hc
        rfl
      | false =>
        have := (hstat hwc c hc).1
        rw [this] at hcw
        simp [NodeType.isWild] at hcw
    · intro c hc
      exact ih c hc

theorem Wf_start : Wf Node.start := by
  refine Wf.mk _ _ _ _ _ _ _ ?_ ?_ ?_ ?_ ?_ ?_ ?_
  · simp [derIdx]
  · intro hh; simp at hh
  · intro _ c hc; simp at hc
  · intro _; simp
  · intro _; rfl
  · intro _ c hc; simp at hc
  · intro c hc; simp at hc

theorem foldl_insert_wf : ∀ (ps : List String) (n t : Node),
    List.foldlM Node.insert n ps = .ok t → Wf n → n.nodeType.isWild = false →
    Wf t ∧ t.nodeType = n.nodeType := by
  intro ps
  induction ps with
  | nil =>
    intro n t h hw hty
    simp only [List.foldlM, pure, Except.pure, Except.ok.injEq] at h
    subst h
    exact ⟨hw, rfl⟩
  | cons q qs ih =>
    intro n t h hw hty
    simp only [List.foldlM, bind, Except.bind] at h
    cases hq : Node.insert n q with
    | error e =>
      rw [hq] at h
      exact Except.noConfusion h
    | ok n2 =>
      rw [hq] at h
      simp only [] at h
      rw [Node.insert] at hq
      cases hpe : patErr q.toList [] with
      | some e => rw [hpe] at hq; simp at hq
      | none =>
        rw [hpe] at hq
        have hstep := insF_wf (q.toList.length + 2) n q.toList n2 hq hw hty
        have := ih n2 t h hstep.1 (by rw [hstep.2.1]; exact hty)
        exact ⟨this.1, this.2.trans hstep.2.1⟩

/-- C6: after every successful sequence of insertions into an empty root,
every node of the resulting tree has at most one wildcard
(`Param`/`CatchAll`) child, and a wildcard child is always the node's only
child — it never coexists with static siblings at a branch point. -/
theorem insert_wild_child_exclusive (ps : List String) (t : Node)
    (h : insertAll ps = .ok t) : WildChildOk t :=
  wf_wildChildOk t (foldl_insert_wf ps Node.start t h Wf_start rfl).1

/-- Witness for `insert_wild_child_exclusive` on a concrete pattern set. -/
theorem insert_wild_child_exclusive_witness :
    WildChildOk (treeOf ["/users/:id/profile", "/files", "/filet"]) :=
  insert_wild_child_exclusive ["/users/:id/profile", "/files", "/filet"] _ rfl

theorem insKidsGo_isOk (k : Node → List Char → Except InsertError Node)
    (k2 : Node → List Char → Bool) (hk : ∀ c p, (k c p).isOk = !k2 c p) :
    ∀ (acc cs : List Node) (b : Char) (tail : List Char),
      (insKidsGo k acc cs b tail).isOk = !conflictsKidsGo k2 cs b tail := by
  intro acc cs
  induction cs generalizing acc with
  | nil =>
    intro b tail
    rw [insKidsGo, conflictsKidsGo]
    rfl
  | cons c rest ih =>
    intro b tail
    rw [insKidsGo, conflictsKidsGo]
    by_cases hc : c.pfx.headD ' ' = b
    · rw [if_pos hc, if_pos hc]
      have := hk c tail
      cases hkk : k c tail with
      | ok c2 =>
        rw [hkk] at this
        simp only [exceptIsOk_ok] at this
        simp [← this, exceptIsOk_ok, exceptIsOk_error]
      | error e =>
        rw [hkk] at this
        simp only [exceptIsOk_error] at this
        simp [← this, exceptIsOk_ok, exceptIsOk_error]
    · rw [if_neg hc, if_neg hc]
      exact ih (acc ++ [c]) b tail

theorem insWildGo_isOk (k : Node → List Char → Except InsertError Node)
    (k2 : Node → List Char → Bool) (hk : ∀ c p, (k c p).isOk = !k2 c p)
    (pr : Nat) (idx : List Char) (ty : NodeType) (px : List Char) (ep : Bool) :
    ∀ (w : Node) (isCatch : Bool) (bs : List Char),
      (insWildGo k pr idx ty px ep w isCatch bs).isOk
        = !conflictsWildGo k2 w isCatch bs := by
  intro w isCatch bs
  obtain ⟨wpr, wwc, widx, wty, wpx, wcs, wep⟩ := w
  rw [insWildGo, conflictsWildGo]
  by_cases hcond : (wty = wildTy isCatch) ∧ wpx = bs.takeWhile (· ≠ '/')
  · rw [if_pos hcond, if_pos hcond]
    cases hrest : bs.dropWhile (· ≠ '/') with
    | nil => rfl
    | cons r rs =>
      simp only []
      have := insKidsGo_isOk k k2 hk [] wcs r (r :: rs)
      split
      · rename_i cs2 hkk
        rw [hkk] at this
        simp only [exceptIsOk_ok] at this
        simp [← this, exceptIsOk_ok, exceptIsOk_error]
      · rename_i e hkk
        rw [hkk] at this
        simp only [exceptIsOk_error] at this
        simp [← this, exceptIsOk_ok, exceptIsOk_error]
  · rw [if_neg hcond, if_neg hcond]
    rfl

theorem insF_isOk : ∀ (fuel : Nat) (n : Node) (p : List Char),
    (insF fuel n p).isOk = !conflictsF fuel n p := by
  intro fuel
  induction fuel with
  | zero =>
    intro n p
    rw [insF, conflictsF]
    rfl
  | succ fuel ih =>
    intro n p
    obtain ⟨pr, wc, idx, ty, px, cs, ep⟩ := n
    rw [insF, conflictsF]
    by_cases hfresh : (px.isEmpty && cs.isEmpty && !ep) = true
    · rw [if_pos hfresh, if_pos hfresh]
      rfl
    · rw [if_neg hfresh, if_neg hfresh]
      by_cases hsplit : lcpLen p px < px.length
      · rw [if_pos hsplit, if_pos hsplit]
        rw [splitIns]
        cases hdrop : p.drop (lcpLen p px) with
        | nil => rfl
        | cons b bs =>
          simp only []
          by_cases hb : isWildStart b = true
          · rw [if_pos hb, hb]
            rfl
          · rw [if_neg hb]
            simp [Bool.not_eq_true] at hb
            rw [hb]
            rfl
      · rw [if_neg hsplit, if_neg hsplit]
        cases hdrop : p.drop (lcpLen p px) with
        | nil => rfl
        | cons b bs =>
          simp only []
          by_cases hb : isWildStart b = true
          · rw [if_pos hb, if_pos hb]
            by_cases hwc : wc = true
            · rw [if_pos hwc, if_pos hwc]
              cases cs with
              | nil => rfl
              | cons c0 cs0 =>
                cases cs0 with
                | nil => exact insWildGo_isOk (insF fuel) (conflictsF fuel) ih pr idx ty px ep c0 _ bs
                | cons c1 cs1 => rfl
            · rw [if_neg hwc, if_neg hwc]
              by_cases hemp : cs.isEmpty = true
              · rw [if_pos hemp, if_pos hemp]
                rw [attachWild]
                rfl
              · rw [if_neg hemp, if_neg hemp]
                rfl
          · rw [if_neg hb, if_neg hb]
            by_cases hwc : wc = true
            · rw [if_pos hwc, if_pos hwc]
              rfl
            · rw [if_neg hwc, if_neg hwc]
              have := insKidsGo_isOk (insF fuel) (conflictsF fuel) ih [] cs b (b :: bs)
              split
              · rename_i cs2 hkk
                rw [hkk] at this
                simp only [exceptIsOk_ok] at this
                simp [← this, exceptIsOk_ok, exceptIsOk_error]
              · rename_i e hkk
                rw [hkk] at this
                simp only [exceptIsOk_error] at this
                simp [← this, exceptIsOk_ok, exceptIsOk_error]

theorem ins_isOk (t : Node) (p : List Char) : (ins t p).isOk = !conflicts t p :=
  insF_isOk _ t p

/-- **C5.** `insert` returns an `InsertError` exactly for structurally
invalid or conflicting patterns, and otherwise succeeds: the result is
`ok` iff the pattern passes the structural validity scan (`patErr`:
duplicate parameter name on one path, catch-all not the final segment,
empty wildcard name) and the insertion walk meets no conflicting occupied
position (`conflicts`).  Concretely: `/a/:x/:x` fails with
`duplicateName`, `/a/*rest/b` with `catchAllNotLast`, `/a/:/b` with
`emptyName`, and inserting `/users/me` after `/users/:id` fails with
`conflict`. -/
theorem insert_error_exactly :
    (∀ (t : Node) (p : String),
        (Node.insert t p).isOk = true ↔
          patErr p.toList [] = none ∧ conflicts t p.toList = false)
    ∧ Node.insert Node.start "/a/:x/:x" = .error .duplicateName
    ∧ Node.insert Node.start "/a/*rest/b" = .error .catchAllNotLast
    ∧ Node.insert Node.start "/a/:/b" = .error .emptyName
    ∧ insertAll ["/users/:id", "/users/me"] = .error .conflict := by
  refine ⟨?_, rfl, rfl, rfl, rfl⟩
  intro t p
  rw [Node.insert]
  split
  · rename_i e hpe
    rw [hpe]
    simp [exceptIsOk_error]
  · rename_i hpe
    rw [hpe, ins_isOk]
    simp

theorem insert_error_exactly_witness :
    (Node.insert Node.start "/ok/:id").isOk = true :=
  (insert_error_exactly.1 Node.start "/ok/:id").mpr ⟨rfl, rfl⟩

/-! ## Pattern instantiation and the big-step matching relation (claim C1) -/

theorem isPrefixOf_append (px rest : List Char) : px.isPrefixOf (px ++ rest) = true := by
  induction px with
  | nil => simp [List.isPrefixOf]
  | cons a as ih => simpa [List.isPrefixOf] using ih

theorem isPrefixOf_self (px : List Char) : px.isPrefixOf px = true := by
  have := isPrefixOf_append px []
  rwa [List.append_nil] at this

theorem takeWhile_append_all (q : Char → Bool) (v l : List Char)
    (hv : ∀ c ∈ v, q c = true) : (v ++ l).takeWhile q = v ++ l.takeWhile q := by
  induction v with
  | nil => rfl
  | cons a as ih =>
    rw [List.cons_append, List.takeWhile_cons, if_pos (hv a (by simp))]
    rw [ih (fun c hc => hv c (by simp [hc]))]
    rfl

theorem dropWhile_append_all (q : Char → Bool) (v l : List Char)
    (hv : ∀ c ∈ v, q c = true) : (v ++ l).dropWhile q = l.dropWhile q := by
  induction v with
  | nil => rfl
  | cons a as ih =>
    rw [List.cons_append, List.dropWhile_cons, if_pos (hv a (by simp))]
    exact ih (fun c hc => hv c (by simp [hc]))

theorem takeWhile_all_ne (v : List Char) (hv : ∀ c ∈ v, c ≠ '/') :
    v.takeWhile (· ≠ '/') = v := by
  have := takeWhile_append_all (fun c => decide (c ≠ '/')) v []
    (fun c hc => by simpa using hv c hc)
  rw [List.append_nil] at this
  simpa using this

theorem dropWhile_all_ne (v : List Char) (hv : ∀ c ∈ v, c ≠ '/') :
    v.dropWhile (· ≠ '/') = [] := by
  have := dropWhile_append_all (fun c => decide (c ≠ '/')) v []
    (fun c hc => by simpa using hv c hc)
  rw [List.append_nil] at this
  simpa using this

theorem lcpLen_take_eq : ∀ (p q : List Char), p.take (lcpLen p q) = q.take (lcpLen p q) := by
  intro p
  induction p with
  | nil => intro q; cases q <;> simp [lcpLen]
  | cons a as ih =>
    intro q
    cases q with
    | nil => simp [lcpLen]
    | cons b bs =>
      rw [lcpLen]
      by_cases h : a = b
      · rw [if_pos h]
        simp only [List.take_succ_cons]
        rw [h, ih bs]
      · rw [if_neg h]
        simp

theorem lcp_full_decomp {p px : List Char} (h : ¬ lcpLen p px < px.length) :
    p = px ++ p.drop px.length ∧ lcpLen p px = px.length := by
  have h1 : lcpLen p px ≤ px.length := lcpLen_le_right p px
  have h2 : lcpLen p px = px.length := by omega
  have h3 : p.take px.length = px := by
    rw [← h2, lcpLen_take_eq p px, h2, List.take_length]
  refine ⟨?_, h2⟩
  conv_lhs => rw [← List.take_append_drop px.length p]
  rw [h3]

theorem findWild_append_static : ∀ (s q : List Char), (∀ c ∈ s, isWildStart c = false) →
    findWild (s ++ q) = (findWild q).map fun r => (s ++ r.1, r.2) := by
  intro s
  induction s with
  | nil =>
    intro q _
    simp only [List.nil_append]
    cases hq : findWild q with
    | none => rfl
    | some t => rfl
  | cons a as ih =>
    intro q hs
    rw [List.cons_append, findWild_static_cons (hs a (by simp))]
    rw [ih q (fun c hc => hs c (by simp [hc]))]
    cases findWild q with
    | none => rfl
    | some t => rfl

theorem instGo_irrel : ∀ (f1 : Nat), ∀ (f2 : Nat) (p : List Char) (vs : List (List Char)),
    p.length < f1 → p.length < f2 → instGo f1 p vs = instGo f2 p vs := by
  intro f1
  induction f1 with
  | zero => intro f2 p vs h1 _; omega
  | succ f1 ih =>
    intro f2 p vs h1 h2
    cases f2 with
    | zero => omega
    | succ f2 =>
      rw [instGo, instGo]
      cases hq : findWild p with
      | none => rfl
      | some t =>
        obtain ⟨s, isCatch, nm, r⟩ := t
        simp only []
        rw [instWild.eq_def, instWild.eq_def]
        by_cases hc : isCatch
        · simp only [if_pos hc]
        · simp only [if_neg hc]
          cases vs with
          | nil => rfl
          | cons v vs2 =>
            simp only []
            by_cases hv : (v.isEmpty || !(v.all fun c => c != '/')) = true
            · rw [if_pos hv, if_pos hv]
            · rw [if_neg hv, if_neg hv]
              have hr := findWild_rest_lt hq
              rw [ih f2 r vs2 (by omega) (by omega)]

theorem instGo_append_static : ∀ (f2 f1 : Nat) (s q : List Char) (vs : List (List Char)),
    (∀ c ∈ s, isWildStart c = false) → q.length < f1 → (s ++ q).length < f2 →
    instGo f2 (s ++ q) vs = (instGo f1 q vs).map fun r => (s ++ r.1, r.2) := by
  intro f2 f1 s q vs hs h1 h2
  cases f2 with
  | zero => omega
  | succ f2 =>
    cases f1 with
    | zero => omega
    | succ f1 =>
      rw [instGo, instGo, findWild_append_static s q hs]
      cases hq : findWild q with
      | none =>
        simp only [Option.map_none']
        cases vs with
        | nil => rfl
        | cons v vs2 => rfl
      | some t =>
        obtain ⟨s2, isCatch, nm, r⟩ := t
        simp only [Option.map_some']
        rw [instWild.eq_def, instWild.eq_def]
        by_cases hc : isCatch
        · simp only [if_pos hc]
          cases vs with
          | nil => rfl
          | cons v vs2 =>
            cases vs2 with
            | cons v2 vs3 => rfl
            | nil =>
              simp only []
              by_cases hre : (r.isEmpty && !v.isEmpty) = true
              · rw [if_pos hre, if_pos hre]
                simp [List.append_assoc]
              · rw [if_neg hre, if_neg hre]
                rfl
        · simp only [if_neg hc]
          cases vs with
          | nil => rfl
          | cons v vs2 =>
            simp only []
            by_cases hv : (v.isEmpty || !(v.all fun c => c != '/')) = true
            · rw [if_pos hv, if_pos hv]
              rfl
            · rw [if_neg hv, if_neg hv]
              have hr : r.length < q.length := findWild_rest_lt hq
              have hirr : instGo f2 r vs2 = instGo f1 r vs2 :=
                instGo_irrel f2 f1 r vs2
                  (by simp [List.length_append] at h2; omega) (by omega)
              rw [hirr]
              cases hi : instGo f1 r vs2 with
              | none => rfl
              | some t2 =>
                obtain ⟨path2, ps2⟩ := t2
                simp [List.append_assoc]

theorem inst_append_static (s : List Char) (hs : ∀ c ∈ s, isWildStart c = false)
    (q : List Char) (vs : List (List Char)) :
    inst (s ++ q) vs = (inst q vs).map fun r => (s ++ r.1, r.2) :=
  instGo_append_static ((s ++ q).length + 1) (q.length + 1) s q vs hs
    (by omega) (by omega)

theorem inst_head_static {b : Char} {bs path : List Char} {vs : List (List Char)}
    {ps : Params} (hb : isWildStart b = false)
    (h : inst (b :: bs) vs = some (path, ps)) : ∃ t, path = b :: t := by
  have ha := inst_append_static [b]
    (by intro c hc; simp at hc; subst hc; exact hb) bs vs
  rw [List.singleton_append] at ha
  rw [ha] at h
  cases hq : inst bs vs with
  | none => rw [hq] at h; simp at h
  | some t =>
    rw [hq] at h
    simp only [Option.map_some', Option.some.injEq, Prod.mk.injEq,
      List.singleton_append] at h
    exact ⟨t.1, h.1.symm⟩

theorem inst_nowild {p : List Char} (hw : findWild p = none) {vs : List (List Char)}
    {path : List Char} {ps : Params} (h : inst p vs = some (path, ps)) :
    vs = [] ∧ path = p ∧ ps = [] := by
  rw [inst, instGo, hw] at h
  cases vs with
  | nil =>
    simp only [List.isEmpty_nil, if_pos, Option.some.injEq, Prod.mk.injEq] at h
    exact ⟨rfl, h.1.symm, h.2.symm⟩
  | cons v vs2 => simp at h

theorem inst_cons_param {bs path : List Char} {vs : List (List Char)} {ps : Params}
    (h : inst (':' :: bs) vs = some (path, ps)) :
    ∃ v vs2 path2 ps2, vs = v :: vs2 ∧ v ≠ [] ∧ (∀ c ∈ v, c ≠ '/') ∧
      inst (bs.dropWhile (· ≠ '/')) vs2 = some (path2, ps2) ∧
      path = v ++ path2 ∧ ps = (bs.takeWhile (· ≠ '/'), v) :: ps2 := by
  rw [inst, instGo] at h
  rw [show findWild (':' :: bs)
      = some ([], false, bs.takeWhile (· ≠ '/'), bs.dropWhile (· ≠ '/')) from rfl] at h
  simp only [] at h
  rw [instWild.eq_def] at h
  simp only [Bool.false_eq_true, if_false] at h
  cases vs with
  | nil => simp at h
  | cons v vs2 =>
    simp only [] at h
    by_cases hv : (v.isEmpty || !(v.all fun c => c != '/')) = true
    · rw [if_pos hv] at h
      simp at h
    · rw [if_neg hv] at h
      simp only [Bool.or_eq_true, not_or, Bool.not_eq_true] at hv
      cases hi : instGo ((':' :: bs).length + 1 - 1) (bs.dropWhile (· ≠ '/')) vs2 with
      | none =>
        rw [show ((':' :: bs).length + 1 - 1) = (':' :: bs).length from rfl] at hi
        rw [hi] at h
        simp at h
      | some t2 =>
        obtain ⟨path2, ps2⟩ := t2
        rw [show ((':' :: bs).length + 1 - 1) = (':' :: bs).length from rfl] at hi
        rw [hi] at h
        simp only [Option.some.injEq, Prod.mk.injEq, List.nil_append] at h
        refine ⟨v, vs2, path2, ps2, rfl, ?_, ?_, ?_, h.1.symm, h.2.symm⟩
        · have := hv.1
          simpa [List.isEmpty_iff] using this
        · intro c hc
          have h2 := hv.2
          simp at h2
          exact h2 c hc
        · rw [inst]
          have hlt : (bs.dropWhile (· ≠ '/')).length < (':' :: bs).length := by
            have := dropWhile_length_le (· ≠ '/') bs
            simp only [List.length_cons]
            omega
          rw [instGo_irrel ((':' :: bs).length) ((bs.dropWhile (· ≠ '/')).length + 1)
            (bs.dropWhile (· ≠ '/')) vs2 hlt (by omega)] at hi
          exact hi

theorem inst_cons_catch {bs path : List Char} {vs : List (List Char)} {ps : Params}
    (h : inst ('*' :: bs) vs = some (path, ps)) :
    ∃ v, vs = [v] ∧ v ≠ [] ∧ bs.dropWhile (· ≠ '/') = [] ∧ path = v ∧
      ps = [(bs.takeWhile (· ≠ '/'), v)] := by
  rw [inst, instGo] at h
  rw [show findWild ('*' :: bs)
      = some ([], true, bs.takeWhile (· ≠ '/'), bs.dropWhile (· ≠ '/')) from rfl] at h
  simp only [] at h
  rw [instWild.eq_def] at h
  simp only [if_pos] at h
  cases vs with
  | nil => simp at h
  | cons v vs2 =>
    cases vs2 with
    | cons v2 vs3 => simp at h
    | nil =>
      simp only [] at h
      by_cases hre : ((bs.dropWhile (· ≠ '/')).isEmpty && !v.isEmpty) = true
      · rw [if_pos hre] at h
        simp only [Option.some.injEq, Prod.mk.injEq, List.nil_append] at h
        simp only [Bool.and_eq_true, Bool.not_eq_true', List.isEmpty_iff] at hre
        refine ⟨v, rfl, ?_, hre.1, h.1.symm, h.2.symm⟩
        simpa [List.isEmpty_iff] using hre.2
      · rw [if_neg hre] at h
        simp at h

theorem placeIn_split (x : Node) : ∀ (l : List Node),
    ∃ l1 l2, l = l1 ++ l2 ∧ placeIn l x = l1 ++ x :: l2 := by
  intro l
  induction l with
  | nil => exact ⟨[], [], rfl, rfl⟩
  | cons y ys ih =>
    by_cases h : y.priority < x.priority
    · exact ⟨[], y :: ys, rfl, by rw [placeIn, if_pos h]; rfl⟩
    · obtain ⟨l1, l2, he, hp⟩ := ih
      refine ⟨y :: l1, l2, by rw [List.cons_append, ← he], ?_⟩
      rw [placeIn, if_neg h, hp]
      rfl

theorem nodup_head_decomp : ∀ (cs : List Node) (c : Node), c ∈ cs →
    (cs.map hd).Nodup → ∃ pre post, cs = pre ++ c :: post ∧ ∀ x ∈ pre, hd x ≠ hd c := by
  intro cs
  induction cs with
  | nil => intro c hc _; simp at hc
  | cons a as ih =>
    intro c hc hnd
    rcases List.mem_cons.1 hc with hceq | hcm
    · exact ⟨[], as, by rw [hceq]; rfl, by simp⟩
    · have hnd2 : (as.map hd).Nodup := by
        simp only [List.map_cons, List.nodup_cons] at hnd
        exact hnd.2
      obtain ⟨pre, post, he, hpre⟩ := ih c hcm hnd2
      refine ⟨a :: pre, post, by rw [List.cons_append, ← he], ?_⟩
      intro x hx
      rcases List.mem_cons.1 hx with hxa | hxp
      · subst hxa
        intro heq
        have hmem : hd c ∈ as.map hd := List.mem_map_of_mem hd hcm
        simp only [List.map_cons, List.nodup_cons] at hnd
        exact hnd.1 (by rw [heq]; exact hmem)
      · exact hpre x hxp

theorem first_head_decomp_unique (r : Char) :
    ∀ (pre1 : List Node) (c1 : Node) (post1 pre2 : List Node) (c2 : Node)
      (post2 : List Node),
      pre1 ++ c1 :: post1 = pre2 ++ c2 :: post2 →
      hd c1 = r → hd c2 = r → (∀ x ∈ pre1, hd x ≠ r) → (∀ x ∈ pre2, hd x ≠ r) →
      pre1 = pre2 ∧ c1 = c2 ∧ post1 = post2 := by
  intro pre1
  induction pre1 with
  | nil =>
    intro c1 post1 pre2 c2 post2 he h1 h2 hp1 hp2
    cases pre2 with
    | nil =>
      simp only [List.nil_append, List.cons.injEq] at he
      exact ⟨rfl, he.1, he.2⟩
    | cons y ys =>
      simp only [List.nil_append, List.cons_append, List.cons.injEq] at he
      exact absurd (he.1 ▸ h1) (hp2 y (by simp))
  | cons x xs ih =>
    intro c1 post1 pre2 c2 post2 he h1 h2 hp1 hp2
    cases pre2 with
    | nil =>
      simp only [List.cons_append, List.nil_append, List.cons.injEq] at he
      exact absurd (he.1 ▸ h2) (hp1 x (by simp))
    | cons y ys =>
      simp only [List.cons_append, List.cons.injEq] at he
      obtain ⟨hxy, he2⟩ := he
      obtain ⟨ha, hb, hc⟩ := ih c1 post1 ys c2 post2 he2 h1 h2
        (fun z hz => hp1 z (List.mem_cons_of_mem x hz))
        (fun z hz => hp2 z (List.mem_cons_of_mem y hz))
      exact ⟨by rw [hxy, ha], hb, hc⟩

theorem derIdx_false_eq (cs : List Node) : derIdx false cs = cs.map hd := rfl

theorem atKidsGo_first (k : ConstNode → List Char → Params → Option Params)
    (r : Char) (rem : List Char) (ps : Params) :
    ∀ (pre : List Node) (c : Node) (post : List Node),
      (∀ x ∈ pre, hd x ≠ r) → hd c = r →
      atKidsGo k (derIdx false (pre ++ c :: post)) (freezeList (pre ++ c :: post))
        r rem ps = k (freeze c) rem ps := by
  intro pre
  induction pre with
  | nil =>
    intro c post _ hc
    rw [List.nil_append, derIdx_false_eq, List.map_cons, freezeList, atKidsGo, if_pos hc]
  | cons x xs ih =>
    intro c post hpre hc
    rw [List.cons_append, derIdx_false_eq, List.map_cons, freezeList, atKidsGo,
      if_neg (hpre x (by simp))]
    have := ih c post (fun z hz => hpre z (List.mem_cons_of_mem x hz)) hc
    rw [derIdx_false_eq] at this
    exact this

/-- Adequacy of the fuel bound for the big-step relation: a `Sem` walk
succeeds in `atAuxF` on the frozen tree with any fuel of at least
`path.length + 1` (one more when the entry node is a static node with an
empty prefix, as the root is), whatever parameters were accumulated
before. -/
theorem sem_sound : ∀ (n : Node) (path : List Char) (out : Params),
    Sem n path out → ∀ (f : Nat) (ps0 : Params),
      path.length + 1 ≤ f →
      (n.pfx = [] → n.nodeType.isWild = false → path.length + 2 ≤ f) →
      atAuxF f (freeze n) path ps0 = some (ps0 ++ out) := by
  intro n path out hsem
  induction hsem with
  | epEmpty pr wc idx ty px cs hty =>
    intro f ps0 hf1 _
    cases f with
    | zero => omega
    | succ f =>
      rw [freeze]
      cases ty with
      | param => simp [NodeType.isWild] at hty
      | catchAll => simp [NodeType.isWild] at hty
      | static =>
        simp only [atAuxF, isPrefixOf_self, if_true, List.drop_length, List.append_nil]
      | root =>
        simp only [atAuxF, isPrefixOf_self, if_true, List.drop_length, List.append_nil]
  | intoWild pr idx ty px w ws ep r rs out hty hwty hs ih =>
    intro f ps0 hf1 hf2
    cases f with
    | zero => omega
    | succ f =>
      have hb : (r :: rs).length + 1 ≤ f := by
        rcases eq_or_ne px [] with hpx | hpx
        · have := hf2 hpx hty
          subst hpx
          simp only [List.nil_append] at this ⊢
          omega
        · have hpl : 1 ≤ px.length := by
            cases px with
            | nil => exact absurd rfl hpx
            | cons a b => simp
          rw [List.length_append] at hf1
          omega
      have hrec := ih f ps0 hb (fun _ hnw => absurd (hwty.symm.trans hnw) (by decide))
      rw [freeze, freezeList]
      cases ty with
      | param => simp [NodeType.isWild] at hty
      | catchAll => simp [NodeType.isWild] at hty
      | static =>
        simp only [atAuxF, isPrefixOf_append, if_true, List.drop_left]
        exact hrec
      | root =>
        simp only [atAuxF, isPrefixOf_append, if_true, List.drop_left]
        exact hrec
  | intoKids pr ty px ep pre post c r rs out hty hpre hc hcpx hs ih =>
    intro f ps0 hf1 hf2
    cases f with
    | zero => omega
    | succ f =>
      have hb : (r :: rs).length + 1 ≤ f := by
        rcases eq_or_ne px [] with hpx | hpx
        · have := hf2 hpx hty
          subst hpx
          simp only [List.nil_append] at this ⊢
          omega
        · have hpl : 1 ≤ px.length := by
            cases px with
            | nil => exact absurd rfl hpx
            | cons a b => simp
          rw [List.length_append] at hf1
          omega
      have hrec := ih f ps0 hb (fun hpx _ => absurd hpx hcpx)
      have hdisp := atKidsGo_first (atAuxF f) r (r :: rs) ps0 pre c post hpre hc
      rw [freeze]
      cases ty with
      | param => simp [NodeType.isWild] at hty
      | catchAll => simp [NodeType.isWild] at hty
      | static =>
        simp only [atAuxF, isPrefixOf_append, if_true, List.drop_left,
          Bool.false_eq_true, if_false]
        rw [hdisp]
        exact hrec
      | root =>
        simp only [atAuxF, isPrefixOf_append, if_true, List.drop_left,
          Bool.false_eq_true, if_false]
        rw [hdisp]
        exact hrec
  | paramEnd pr wc idx px cs v hv hvf =>
    intro f ps0 hf1 _
    cases f with
    | zero => omega
    | succ f =>
      rw [freeze]
      simp only [atAuxF, dropWhile_all_ne v hvf, takeWhile_all_ne v hvf, if_true]
  | paramKids pr px ep pre post c v rs out hv hvf hpre hc hcpx hs ih =>
    intro f ps0 hf1 _
    cases f with
    | zero => omega
    | succ f =>
      have hvl : 1 ≤ v.length := by
        cases v with
        | nil => exact absurd rfl hv
        | cons a b => simp
      have hb : ('/' :: rs).length + 1 ≤ f := by
        rw [List.length_append] at hf1
        simp only [List.length_cons] at hf1 ⊢
        omega
      have hdw : (v ++ '/' :: rs).dropWhile (· ≠ '/') = '/' :: rs := by
        rw [dropWhile_append_all _ v _ (fun x hx => by simpa using hvf x hx)]
        rw [List.dropWhile_cons]
        simp
      have htw : (v ++ '/' :: rs).takeWhile (· ≠ '/') = v := by
        rw [takeWhile_append_all _ v _ (fun x hx => by simpa using hvf x hx)]
        rw [List.takeWhile_cons]
        simp
      have hrec := ih f (ps0 ++ [(px, v)]) hb (fun hpx _ => absurd hpx hcpx)
      have hdisp := atKidsGo_first (atAuxF f) '/' ('/' :: rs) (ps0 ++ [(px, v)])
        pre c post hpre hc
      rw [freeze]
      simp only [atAuxF, hdw, htw, Bool.false_eq_true, if_false]
      rw [hdisp, hrec]
      simp
  | caNode pr wc idx px cs ep path =>
    intro f ps0 hf1 _
    cases f with
    | zero => omega
    | succ f =>
      rw [freeze]
      simp only [atAuxF]

theorem findWild_decomp : ∀ {p s : List Char} {b : Bool} {nm r : List Char},
    findWild p = some (s, b, nm, r) →
    p = s ++ (if b then '*' else ':') :: (nm ++ r)
      ∧ nm = (nm ++ r).takeWhile (· ≠ '/') ∧ r = (nm ++ r).dropWhile (· ≠ '/') := by
  intro p
  induction p with
  | nil => intro s b nm r h; simp [findWild] at h
  | cons a as ih =>
    intro s b nm r h
    by_cases ha : a = ':'
    · rw [findWild, if_pos ha] at h
      simp only [Option.some.injEq, Prod.mk.injEq] at h
      obtain ⟨hs, hb, hn, hr⟩ := h
      subst hs hb hn hr
      subst ha
      refine ⟨?_, ?_, ?_⟩
      · simp [List.takeWhile_append_dropWhile]
      · rw [List.takeWhile_append_dropWhile]
      · rw [List.takeWhile_append_dropWhile]
    · by_cases ha2 : a = '*'
      · rw [findWild, if_neg ha, if_pos ha2] at h
        simp only [Option.some.injEq, Prod.mk.injEq] at h
        obtain ⟨hs, hb, hn, hr⟩ := h
        subst hs hb hn hr
        subst ha2
        refine ⟨?_, ?_, ?_⟩
        · simp [List.takeWhile_append_dropWhile]
        · rw [List.takeWhile_append_dropWhile]
        · rw [List.takeWhile_append_dropWhile]
      · rw [findWild, if_neg ha, if_neg ha2] at h
        cases hw : findWild as with
        | none => rw [hw] at h; simp at h
        | some t =>
          obtain ⟨s2, b2, n2, r2⟩ := t
          rw [hw] at h
          simp only [Option.map_some', Option.some.injEq, Prod.mk.injEq] at h
          obtain ⟨hs, hb, hn, hr⟩ := h
          subst hb hn hr
          obtain ⟨h1, h2, h3⟩ := ih hw
          subst hs
          exact ⟨by rw [List.cons_append, ← h1], h2, h3⟩

theorem buildWild_catch_sem (nm rest path : List Char) :
    Sem (buildWild true nm rest) path [(nm, path)] := by
  rw [buildWild]
  simp only [if_pos]
  exact Sem.caNode 1 false [] nm [] true path

theorem build_sem_aux (k : Nat) :
    (∀ (p : List Char) (vs : List (List Char)) (path : List Char) (ps : Params),
        p.length ≤ k → inst p vs = some (path, ps) → Sem (buildChain p) path ps)
    ∧ (∀ (nm rest : List Char) (vs : List (List Char)) (v path2 : List Char)
        (ps2 : Params), rest.length ≤ k → (rest = [] ∨ rest.headD ' ' = '/') →
        v ≠ [] → (∀ c ∈ v, c ≠ '/') → inst rest vs = some (path2, ps2) →
        Sem (buildWild false nm rest) (v ++ path2) ((nm, v) :: ps2)) := by
  induction k using Nat.strong_induction_on with
  | _ k ih =>
    have hq : ∀ (p : List Char) (vs : List (List Char)) (path : List Char) (ps : Params),
        p.length ≤ k → inst p vs = some (path, ps) → Sem (buildChain p) path ps := by
      intro p vs path ps hp h
      rw [buildChain]
      split
      · rename_i hfw
        obtain ⟨hvs, hpath, hps⟩ := inst_nowild hfw h
        subst hpath hps
        exact Sem.epEmpty 1 false [] .static _ [] rfl
      · rename_i s isCatch nm r hw
        have hrl : r.length < p.length := findWild_rest_lt hw
        have hsh := findWild_rest_shape hw
        obtain ⟨hdec, htk, hdr⟩ := findWild_decomp hw
        have hsstat := findWild_some_static hw
        rw [hdec, inst_append_static s hsstat _ vs] at h
        cases hq2 : inst ((if isCatch then '*' else ':') :: (nm ++ r)) vs with
        | none => rw [hq2] at h; simp at h
        | some t =>
          obtain ⟨path', ps'⟩ := t
          rw [hq2] at h
          simp only [Option.map_some', Option.some.injEq, Prod.mk.injEq] at h
          obtain ⟨hpath, hps⟩ := h
          subst hps
          have hwsem : Sem (buildWild isCatch nm r) path' ps' ∧ path' ≠ [] := by
            cases isCatch with
            | true =>
              obtain ⟨v, hvs, hv, hrd, hp2, hps2⟩ := inst_cons_catch hq2
              rw [← htk] at hps2
              subst hp2 hps2
              exact ⟨buildWild_catch_sem nm r _, hv⟩
            | false =>
              obtain ⟨v, vs2, path2, ps2, hvs, hv, hvf, hi, hp2, hps2⟩ :=
                inst_cons_param hq2
              rw [← htk] at hps2
              rw [← hdr] at hi
              subst hp2 hps2
              refine ⟨?_, by simp [hv]⟩
              cases k with
              | zero => omega
              | succ k2 =>
                exact (ih k2 (by omega)).2 nm r vs2 v path2 ps2 (by omega) hsh hv hvf hi
          obtain ⟨hws, hpne⟩ := hwsem
          by_cases hse : s.isEmpty
          · rw [if_pos hse]
            have hs0 : s = [] := by simpa [List.isEmpty_iff] using hse
            subst hpath
            rw [hs0, List.nil_append]
            exact hws
          · rw [if_neg hse]
            obtain ⟨r0, rs0, hp0⟩ : ∃ r0 rs0, path' = r0 :: rs0 := by
              cases path' with
              | nil => exact absurd rfl hpne
              | cons a b => exact ⟨a, b, rfl⟩
            subst hpath hp0
            exact Sem.intoWild 1 [] .static s (buildWild isCatch nm r) [] false r0 rs0
              ps' rfl (buildWild_isWild _ _ _) hws
    refine ⟨hq, ?_⟩
    intro nm rest vs v path2 ps2 hr hsh hv hvf hi
    rw [buildWild]
    simp only [Bool.false_eq_true, if_false]
    by_cases hre : rest.isEmpty
    · rw [if_pos hre]
      have hr0 : rest = [] := by simpa [List.isEmpty_iff] using hre
      subst hr0
      obtain ⟨hvs, hp2, hps2⟩ := @inst_nowild [] rfl vs path2 ps2 hi
      subst hp2 hps2
      rw [List.append_nil]
      exact Sem.paramEnd 1 false [] nm [] v hv hvf
    · rw [if_neg hre]
      have hr0 : rest ≠ [] := by simpa [List.isEmpty_iff] using hre
      have hrh : rest.headD ' ' = '/' := hsh.resolve_left hr0
      obtain ⟨r0, rs0, hre2⟩ : ∃ r0 rs0, rest = r0 :: rs0 := by
        cases rest with
        | nil => exact absurd rfl hr0
        | cons a b => exact ⟨a, b, rfl⟩
      subst hre2
      simp only [List.headD_cons] at hrh
      subst hrh
      have hr0w : isWildStart '/' = false := by decide
      have hbs := @buildChain_static '/' rs0 hr0w
      have hcsem : Sem (buildChain ('/' :: rs0)) path2 ps2 :=
        hq ('/' :: rs0) vs path2 ps2 (by omega) hi
      obtain ⟨t2, hp2⟩ := inst_head_static hr0w hi
      subst hp2
      exact Sem.paramKids 1 nm false [] [] (buildChain ('/' :: rs0)) v t2 ps2
        hv hvf (by simp) hbs.2.2 hbs.2.1 hcsem

theorem build_sem (p : List Char) (vs : List (List Char)) (path : List Char)
    (ps : Params) (h : inst p vs = some (path, ps)) : Sem (buildChain p) path ps :=
  (build_sem_aux p.length).1 p vs path ps le_rfl h

theorem kids_preserve (fuel : Nat)
    (IH : ∀ (c : Node) (p : List Char) (t' : Node), insF fuel c p = .ok t' → Wf c →
      c.nodeType.isWild = false → ∀ (path : List Char) (out : Params),
        Sem c path out → Sem t' path out)
    (cs : List Node) (b : Char) (bs : List Char) (cs2 : List Node)
    (hb : isWildStart b = false)
    (hins : insKidsGo (insF fuel) [] cs b (b :: bs) = .ok cs2)
    (hstat : ∀ c ∈ cs, c.nodeType = .static ∧ c.pfx ≠ [])
    (hnd : (cs.map hd).Nodup)
    (hkids : ∀ c ∈ cs, Wf c) :
    ∀ (pre post : List Node) (c : Node) (r : Char) (rs : List Char) (out : Params),
      cs = pre ++ c :: post → (∀ x ∈ pre, hd x ≠ r) → hd c = r → Sem c (r :: rs) out →
      ∃ pre2 post2 c2, cs2 = pre2 ++ c2 :: post2 ∧ (∀ x ∈ pre2, hd x ≠ r) ∧
        hd c2 = r ∧ c2.pfx ≠ [] ∧ Sem c2 (r :: rs) out := by
  intro pre post c r rs out hdecomp hpre hc hs
  have hupd := kids_update_wf fuel (fun c p t' h hw hty => insF_wf fuel c p t' h hw hty)
    cs b bs cs2 hb hins hstat hnd hkids
  rcases insKidsGo_cases (insF fuel) b (b :: bs) [] cs cs2 hins with
    ⟨preI, cI, postI, cI2, hcsI, hpreI, hcI, hk, hout⟩ | ⟨hall, hout⟩
  · by_cases hrb : r = b
    · subst hrb
      obtain ⟨hpe, hce, hpo⟩ := first_head_decomp_unique r pre c post preI cI postI
        (hdecomp ▸ hcsI) hc hcI hpre hpreI
      subst hpe hce hpo
      have hcmem : c ∈ cs := hdecomp ▸ List.mem_append_right pre (List.mem_cons_self c post)
      have hcw : Wf c := hkids c hcmem
      have hcst := hstat c hcmem
      have hs2 : Sem cI2 (r :: rs) out :=
        IH c (r :: bs) cI2 hk hcw (by rw [hcst.1]; rfl) (r :: rs) out hs
      have hwfc := insF_wf fuel c (r :: bs) cI2 hk hcw (by rw [hcst.1]; rfl)
      have hc2px : cI2.pfx ≠ [] ∧ cI2.pfx.headD ' ' = c.pfx.headD ' ' :=
        hwfc.2.2 (by simp) hcst.2 (by simpa [hd] using hc.symm)
      obtain ⟨l1, l2, hl12, hpl⟩ := placeIn_split cI2 pre
      refine ⟨l1, l2 ++ post, cI2, ?_, ?_, ?_, hc2px.1, hs2⟩
      · rw [hout, List.nil_append, hpl]
        simp
      · intro x hx
        have hxp : x ∈ pre := by rw [hl12]; exact List.mem_append_left l2 hx
        exact hpre x hxp
      · show hd cI2 = r
        rw [hd, hc2px.2]
        exact hc
    · have hcne : c ≠ cI := by
        intro he
        rw [he, hcI] at hc
        exact hrb hc.symm
      have hcmem2 : c ∈ cs2 := by
        have hcmem : c ∈ cs := hdecomp ▸
          List.mem_append_right pre (List.mem_cons_self c post)
        rw [hcsI] at hcmem
        obtain ⟨l1, l2, hl12, hpl⟩ := placeIn_split cI2 preI
        rw [hout, List.nil_append, hpl]
        rcases List.mem_append.1 hcmem with hm | hm
        · rw [hl12] at hm
          rcases List.mem_append.1 hm with hm2 | hm2
          · exact List.mem_append_left _ (List.mem_append_left _ hm2)
          · exact List.mem_append_left _
              (List.mem_append_right l1 (List.mem_cons_of_mem cI2 hm2))
        · rcases List.mem_cons.1 hm with hm2 | hm2
          · exact absurd hm2 hcne
          · exact List.mem_append_right _ hm2
      obtain ⟨pre2, post2, hd2, hpre2⟩ := nodup_head_decomp cs2 c hcmem2 hupd.2.1
      refine ⟨pre2, post2, c, hd2, ?_, hc, (hupd.1 c hcmem2).2, hs⟩
      intro x hx
      rw [hc] at hpre2
      exact hpre2 x hx
  · refine ⟨pre, post ++ [buildChain (b :: bs)], c, ?_, hpre, hc, ?_, hs⟩
    · rw [hout, List.nil_append, hdecomp]
      simp
    · have hcmem : c ∈ cs := hdecomp ▸
        List.mem_append_right pre (List.mem_cons_self c post)
      exact (hstat c hcmem).2

theorem sem_inv {pr : Nat} {wc : Bool} {idx : List Char} {ty : NodeType}
    {px : List Char} {cs : List Node} {ep : Bool} {path : List Char} {out : Params}
    (h : Sem ⟨pr, wc, idx, ty, px, cs, ep⟩ path out) :
    (ep = true ∧ ty.isWild = false ∧ path = px ∧ out = [])
    ∨ (∃ w ws r rs, wc = true ∧ cs = w :: ws ∧ ty.isWild = false ∧
         w.nodeType.isWild = true ∧ path = px ++ r :: rs ∧ Sem w (r :: rs) out)
    ∨ (∃ pre post c r rs, wc = false ∧ cs = pre ++ c :: post ∧
         idx = derIdx false cs ∧ ty.isWild = false ∧ (∀ x ∈ pre, hd x ≠ r) ∧
         hd c = r ∧ c.pfx ≠ [] ∧ path = px ++ r :: rs ∧ Sem c (r :: rs) out)
    ∨ (∃ v, ty = .param ∧ ep = true ∧ v ≠ [] ∧ (∀ x ∈ v, x ≠ '/') ∧
         path = v ∧ out = [(px, v)])
    ∨ (∃ pre post c v rs out2, ty = .param ∧ wc = false ∧ cs = pre ++ c :: post ∧
         idx = derIdx false cs ∧ v ≠ [] ∧ (∀ x ∈ v, x ≠ '/') ∧
         (∀ x ∈ pre, hd x ≠ '/') ∧ hd c = '/' ∧ c.pfx ≠ [] ∧
         path = v ++ '/' :: rs ∧ out = (px, v) :: out2 ∧ Sem c ('/' :: rs) out2)
    ∨ (ty = .catchAll ∧ out = [(px, path)]) := by
  cases h with
  | epEmpty =>
    exact Or.inl ⟨rfl, by assumption, rfl, rfl⟩
  | intoWild =>
    refine Or.inr (Or.inl ⟨_, _, _, _, rfl, rfl, ?_, ?_, rfl, ?_⟩) <;> assumption
  | intoKids =>
    refine Or.inr (Or.inr (Or.inl
      ⟨_, _, _, _, _, rfl, rfl, rfl, ?_, ?_, ?_, ?_, rfl, ?_⟩)) <;> assumption
  | paramEnd =>
    refine Or.inr (Or.inr (Or.inr (Or.inl ⟨_, rfl, rfl, ?_, ?_, rfl, rfl⟩))) <;>
      assumption
  | paramKids =>
    refine Or.inr (Or.inr (Or.inr (Or.inr (Or.inl
      ⟨_, _, _, _, _, _, rfl, rfl, rfl, rfl, ?_, ?_, ?_, ?_, ?_, rfl, rfl, ?_⟩)))) <;>
      assumption
  | caNode =>
    exact Or.inr (Or.inr (Or.inr (Or.inr (Or.inr ⟨rfl, rfl⟩))))

set_option maxHeartbeats 1600000 in
theorem insF_preserves : ∀ (fuel : Nat) (n : Node) (p : List Char) (t' : Node),
    insF fuel n p = .ok t' → Wf n → n.nodeType.isWild = false →
    ∀ (path : List Char) (out : Params), Sem n path out → Sem t' path out := by
  intro fuel
  induction fuel with
  | zero =>
    intro n p t' h
    rw [insF] at h
    simp at h
  | succ fuel ih =>
    intro n p t' h hwf hty path out hsem
    obtain ⟨pr, wc, idx, ty, px, cs, ep⟩ := n
    simp only at hty
    cases hwf with
    | mk _ _ _ _ _ _ _ hidx hwild hstat hnd hwty hpxf hkids =>
    simp only [insF] at h
    by_cases hfresh : (px.isEmpty && cs.isEmpty && !ep) = true
    · rw [if_pos hfresh] at h
      simp only [Bool.and_eq_true, Bool.not_eq_true', List.isEmpty_iff] at hfresh
      obtain ⟨⟨hpx, hcs⟩, hep⟩ := hfresh
      subst hpx hcs hep
      rcases sem_inv hsem with ⟨hep2, _, _, _⟩
        | ⟨w, ws, r, rs, hwc2, hcs2, _⟩
        | ⟨pre, post, c, r, rs, hwc2, hcs2, _⟩
        | ⟨v, htyp, _⟩
        | ⟨pre, post, c, v, rs, o2, htyp, _⟩
        | ⟨htyp, _⟩
      · simp at hep2
      · simp at hcs2
      · simp at hcs2
      · rw [htyp] at hty; simp [NodeType.isWild] at hty
      · rw [htyp] at hty; simp [NodeType.isWild] at hty
      · rw [htyp] at hty; simp [NodeType.isWild] at hty
    · rw [if_neg hfresh] at h
      by_cases hsplit : lcpLen p px < px.length
      · rw [if_pos hsplit] at h
        simp only [splitIns] at h
        have hpxd : px.drop (lcpLen p px) ≠ [] := drop_ne_nil_of_lt px _ hsplit
        obtain ⟨d, ds, hdd⟩ : ∃ d ds, px.drop (lcpLen p px) = d :: ds := by
          cases hx : px.drop (lcpLen p px) with
          | nil => exact absurd hx hpxd
          | cons a b => exact ⟨a, b, rfl⟩
        have hpxeq : px.take (lcpLen p px) ++ d :: ds = px := by
          rw [← hdd]
          exact List.take_append_drop _ px
        cases hdrop2 : p.drop (lcpLen p px) with
        | nil =>
          rw [hdrop2] at h
          simp only [Except.ok.injEq] at h
          subst h
          rcases sem_inv hsem with ⟨hep2, _, hpath, hout⟩
            | ⟨w, ws, r, rs, hwc2, hcs2, hty2, hwty2, hpath, hs⟩
            | ⟨pre, post, c, r, rs, hwc2, hcs2, hidx2, hty2, hpre, hc, hcpx, hpath, hs⟩
            | ⟨v, htyp, _⟩
            | ⟨pre, post, c, v, rs, o2, htyp, _⟩
            | ⟨htyp, _⟩
          · subst hep2 hout
            rw [hpath]
            have hcsem : Sem ⟨pr, wc, idx, .static, px.drop (lcpLen p px), cs, true⟩
                (px.drop (lcpLen p px)) [] := Sem.epEmpty pr wc idx .static _ cs rfl
            nth_rewrite 2 [hdd] at hcsem
            have hw := Sem.intoKids (pr + 1) ty (px.take (lcpLen p px)) true [] []
              ⟨pr, wc, idx, .static, px.drop (lcpLen p px), cs, true⟩ d ds []
              hty (by simp) (by simp [hd, hdd]) hpxd hcsem
            rwa [hpxeq] at hw
          · subst hwc2 hcs2 hpath
            have hcsem : Sem ⟨pr, true, idx, .static, px.drop (lcpLen p px), w :: ws, ep⟩
                (px.drop (lcpLen p px) ++ r :: rs) out :=
              Sem.intoWild pr idx .static _ w ws ep r rs out rfl hwty2 hs
            nth_rewrite 2 [hdd] at hcsem
            rw [List.cons_append] at hcsem
            have hw := Sem.intoKids (pr + 1) ty (px.take (lcpLen p px)) true [] []
              ⟨pr, true, idx, .static, px.drop (lcpLen p px), w :: ws, ep⟩ d
              (ds ++ r :: rs) out hty (by simp) (by simp [hd, hdd]) hpxd hcsem
            have hpp : px.take (lcpLen p px) ++ d :: (ds ++ r :: rs) = px ++ r :: rs := by
              conv_rhs => rw [← hpxeq]
              simp
            rwa [hpp] at hw
          · subst hwc2 hcs2 hpath hidx2
            have hcsem : Sem ⟨pr, false, derIdx false (pre ++ c :: post), .static,
                px.drop (lcpLen p px), pre ++ c :: post, ep⟩
                (px.drop (lcpLen p px) ++ r :: rs) out :=
              Sem.intoKids pr .static _ ep pre post c r rs out rfl hpre hc hcpx hs
            nth_rewrite 2 [hdd] at hcsem
            rw [List.cons_append] at hcsem
            have hw := Sem.intoKids (pr + 1) ty (px.take (lcpLen p px)) true [] []
              ⟨pr, false, derIdx false (pre ++ c :: post), .static,
                px.drop (lcpLen p px), pre ++ c :: post, ep⟩ d
              (ds ++ r :: rs) out hty (by simp) (by simp [hd, hdd]) hpxd hcsem
            have hpp : px.take (lcpLen p px) ++ d :: (ds ++ r :: rs) = px ++ r :: rs := by
              conv_rhs => rw [← hpxeq]
              simp
            rwa [hpp] at hw
          · rw [htyp] at hty; simp [NodeType.isWild] at hty
          · rw [htyp] at hty; simp [NodeType.isWild] at hty
          · rw [htyp] at hty; simp [NodeType.isWild] at hty
        | cons b2 bs2 =>
          rw [hdrop2] at h
          simp only [] at h
          by_cases hw2 : isWildStart b2 = true
          · rw [if_pos hw2] at h
            simp at h
          · rw [if_neg hw2] at h
            simp only [Except.ok.injEq] at h
            subst h
            rcases sem_inv hsem with ⟨hep2, _, hpath, hout⟩
              | ⟨w, ws, r, rs, hwc2, hcs2, hty2, hwty2, hpath, hs⟩
              | ⟨pre, post, c, r, rs, hwc2, hcs2, hidx2, hty2, hpre, hc, hcpx, hpath, hs⟩
              | ⟨v, htyp, _⟩
              | ⟨pre, post, c, v, rs, o2, htyp, _⟩
              | ⟨htyp, _⟩
            · subst hep2 hout
              rw [hpath]
              have hcsem : Sem ⟨pr, wc, idx, .static, px.drop (lcpLen p px), cs, true⟩
                  (px.drop (lcpLen p px)) [] := Sem.epEmpty pr wc idx .static _ cs rfl
              nth_rewrite 2 [hdd] at hcsem
              have hw := Sem.intoKids (pr + 1) ty (px.take (lcpLen p px)) false [] [buildChain (b2 :: bs2)]
                ⟨pr, wc, idx, .static, px.drop (lcpLen p px), cs, true⟩ d ds []
                hty (by simp) (by simp [hd, hdd]) hpxd hcsem
              rwa [hpxeq] at hw
            · subst hwc2 hcs2 hpath
              have hcsem : Sem ⟨pr, true, idx, .static, px.drop (lcpLen p px), w :: ws, ep⟩
                  (px.drop (lcpLen p px) ++ r :: rs) out :=
                Sem.intoWild pr idx .static _ w ws ep r rs out rfl hwty2 hs
              nth_rewrite 2 [hdd] at hcsem
              rw [List.cons_append] at hcsem
              have hw := Sem.intoKids (pr + 1) ty (px.take (lcpLen p px)) false [] [buildChain (b2 :: bs2)]
                ⟨pr, true, idx, .static, px.drop (lcpLen p px), w :: ws, ep⟩ d
                (ds ++ r :: rs) out hty (by simp) (by simp [hd, hdd]) hpxd hcsem
              have hpp : px.take (lcpLen p px) ++ d :: (ds ++ r :: rs) = px ++ r :: rs := by
                conv_rhs => rw [← hpxeq]
                simp
              rwa [hpp] at hw
            · subst hwc2 hcs2 hpath hidx2
              have hcsem : Sem ⟨pr, false, derIdx false (pre ++ c :: post), .static,
                  px.drop (lcpLen p px), pre ++ c :: post, ep⟩
                  (px.drop (lcpLen p px) ++ r :: rs) out :=
                Sem.intoKids pr .static _ ep pre post c r rs out rfl hpre hc hcpx hs
              nth_rewrite 2 [hdd] at hcsem
              rw [List.cons_append] at hcsem
              have hw := Sem.intoKids (pr + 1) ty (px.take (lcpLen p px)) false [] [buildChain (b2 :: bs2)]
                ⟨pr, false, derIdx false (pre ++ c :: post), .static,
                  px.drop (lcpLen p px), pre ++ c :: post, ep⟩ d
                (ds ++ r :: rs) out hty (by simp) (by simp [hd, hdd]) hpxd hcsem
              have hpp : px.take (lcpLen p px) ++ d :: (ds ++ r :: rs) = px ++ r :: rs := by
                conv_rhs => rw [← hpxeq]
                simp
              rwa [hpp] at hw
            · rw [htyp] at hty; simp [NodeType.isWild] at hty
            · rw [htyp] at hty; simp [NodeType.isWild] at hty
            · rw [htyp] at hty; simp [NodeType.isWild] at hty
      · rw [if_neg hsplit] at h
        cases hdrop : p.drop (lcpLen p px) with
        | nil =>
          rw [hdrop] at h
          simp only [Except.ok.injEq] at h
          subst h
          rcases sem_inv hsem with ⟨hep2, _, hpath, hout⟩
            | ⟨w, ws, r, rs, hwc2, hcs2, hty2, hwty2, hpath, hs⟩
            | ⟨pre, post, c, r, rs, hwc2, hcs2, hidx2, hty2, hpre, hc, hcpx, hpath, hs⟩
            | ⟨v, htyp, _⟩
            | ⟨pre, post, c, v, rs, o2, htyp, _⟩
            | ⟨htyp, _⟩
          · subst hep2 hout
            rw [hpath]
            exact Sem.epEmpty (pr + 1) wc idx ty px cs hty
          · subst hwc2 hcs2 hpath
            exact Sem.intoWild (pr + 1) idx ty px w ws true r rs out hty hwty2 hs
          · subst hwc2 hcs2 hpath hidx2
            exact Sem.intoKids (pr + 1) ty px true pre post c r rs out hty hpre hc hcpx hs
          · rw [htyp] at hty; simp [NodeType.isWild] at hty
          · rw [htyp] at hty; simp [NodeType.isWild] at hty
          · rw [htyp] at hty; simp [NodeType.isWild] at hty
        | cons b bs =>
          rw [hdrop] at h
          simp only [] at h
          by_cases hbw : isWildStart b = true
          · rw [if_pos hbw] at h
            by_cases hwc : wc = true
            · rw [if_pos hwc] at h
              obtain ⟨w, hcseq, hwty2⟩ := hwild hwc
              subst hcseq
              subst hwc
              simp only [] at h
              have hwfw : Wf w := hkids w (by simp)
              obtain ⟨wpr, wwc, widx, wty, wpx, wcs, wep⟩ := w
              simp only at hwty2
              cases hwfw with
              | mk _ _ _ _ _ _ _ hwidx hwwild hwstat hwnd hwwty hwpxf hwkids =>
              have hwwc : wwc = false := hwwty hwty2
              subst hwwc
              simp only [insWildGo] at h
              split at h
              · cases hrest : bs.dropWhile (· ≠ '/') with
                | nil =>
                  rw [hrest] at h
                  simp only [Except.ok.injEq] at h
                  subst h
                  rcases sem_inv hsem with ⟨hep2, _, hpath, hout⟩
                    | ⟨w2, ws2, r, rs, hwc2, hcs2, hty2, hwty3, hpath, hs⟩
                    | ⟨pre, post, c, r, rs, hwc2, hcs2, _⟩
                    | ⟨v, htyp, _⟩
                    | ⟨pre, post, c, v, rs, o2, htyp, _⟩
                    | ⟨htyp, _⟩
                  · subst hep2 hout
                    rw [hpath]
                    exact Sem.epEmpty (pr + 1) true idx ty px _ hty
                  · have hw2e : w2 = ⟨wpr, false, widx, wty, wpx, wcs, wep⟩ ∧ ws2 = [] := by
                      have := hcs2.symm
                      simp only [List.cons.injEq] at this
                      exact ⟨this.1, this.2⟩
                    obtain ⟨hw2e1, hw2e2⟩ := hw2e
                    subst hw2e1 hw2e2 hpath
                    have hsw : Sem ⟨wpr + 1, false, widx, wty, wpx, wcs, true⟩ (r :: rs) out := by
                      rcases sem_inv hs with ⟨wep2, wty2, wpath, wout⟩
                        | ⟨v2, vs2, r2, rs2, hwwc2, _⟩
                        | ⟨pre, post, c, r2, rs2, hwwc2, hwcs2, hwidx2, hwty4, hwpre, hwc3, hwcpx, hwpath, hws⟩
                        | ⟨v, hwtyp, wep2, hv, hvf, wpath, wout⟩
                        | ⟨pre, post, c, v, rs2, o2, hwtyp, hwwc2, hwcs2, hwidx2, hv, hvf, hwpre, hwc3, hwcpx, hwpath, hwout, hws⟩
                        | ⟨hwtyp, hwout⟩
                      · subst wep2 wout
                        rw [wpath]
                        exact Sem.epEmpty (wpr + 1) false widx wty wpx wcs wty2
                      · simp at hwwc2
                      · subst hwcs2 hwidx2
                        rw [hwpath]
                        exact Sem.intoKids (wpr + 1) wty wpx true pre post c r2 rs2 out
                          hwty4 hwpre hwc3 hwcpx hws
                      · subst wep2 wout
                        rw [wpath, hwtyp]
                        exact Sem.paramEnd (wpr + 1) false widx wpx wcs v hv hvf
                      · subst hwcs2 hwidx2 hwtyp
                        rw [hwpath, hwout]
                        exact Sem.paramKids (wpr + 1) wpx true pre post c v rs2 o2
                          hv hvf hwpre hwc3 hwcpx hws
                      · subst hwtyp
                        rw [hwout]
                        exact Sem.caNode (wpr + 1) false widx wpx wcs true (r :: rs)
                    exact Sem.intoWild (pr + 1) idx ty px _ [] ep r rs out hty
                      (by simpa using hwty2) hsw
                  · simp at hwc2
                  · rw [htyp] at hty; simp [NodeType.isWild] at hty
                  · rw [htyp] at hty; simp [NodeType.isWild] at hty
                  · rw [htyp] at hty; simp [NodeType.isWild] at hty
                | cons r2 rs2 =>
                  rw [hrest] at h
                  simp only [] at h
                  have hr2 : r2 = '/' := dropWhile_headD_slash bs r2 rs2 hrest
                  subst hr2
                  cases hins : insKidsGo (insF fuel) [] wcs '/' ('/' :: rs2) with
                  | error e => rw [hins] at h; simp at h
                  | ok cs2 =>
                    rw [hins] at h
                    simp only [Except.ok.injEq] at h
                    subst h
                    rcases sem_inv hsem with ⟨hep2, _, hpath, hout⟩
                      | ⟨w2, ws2, r, rs, hwc2, hcs2, hty2, hwty3, hpath, hs⟩
                      | ⟨pre, post, c, r, rs, hwc2, hcs2, _⟩
                      | ⟨v, htyp, _⟩
                      | ⟨pre, post, c, v, rs, o2, htyp, _⟩
                      | ⟨htyp, _⟩
                    · subst hep2 hout
                      rw [hpath]
                      exact Sem.epEmpty (pr + 1) true idx ty px _ hty
                    · have hw2e1 : w2 = ⟨wpr, false, widx, wty, wpx, wcs, wep⟩ := by
                        have h2 := hcs2.symm
                        simp only [List.cons.injEq] at h2
                        exact h2.1
                      subst hw2e1
                      subst hpath
                      have hsw : Sem ⟨wpr + 1, false, derIdx false cs2, wty, wpx, cs2, wep⟩
                          (r :: rs) out := by
                        rcases sem_inv hs with ⟨wep2, wty2, wpath, wout⟩
                          | ⟨v2, vs2, rr, rrs, hwwc2, _⟩
                          | ⟨pre, post, c, rr, rrs, hwwc2, hwcs2, hwidx2, hwty4, hwpre, hwc3, hwcpx, hwpath, hws⟩
                          | ⟨v, hwtyp, wep2, hv, hvf, wpath, wout⟩
                          | ⟨pre, post, c, v, rrs, o2, hwtyp, hwwc2, hwcs2, hwidx2, hv, hvf, hwpre, hwc3, hwcpx, hwpath, hwout, hws⟩
                          | ⟨hwtyp, hwout⟩
                        · subst wep2 wout
                          rw [wpath]
                          exact Sem.epEmpty (wpr + 1) false _ wty wpx cs2 wty2
                        · simp at hwwc2
                        · obtain ⟨pre2, post2, c2, hdec2, hpre2, hc2, hcpx2, hs2⟩ :=
                            kids_preserve fuel ih wcs '/' rs2 cs2 (by decide) hins
                              (hwstat rfl) (hwnd rfl) hwkids pre post c rr rrs out
                              hwcs2 hwpre hwc3 hws
                          rw [hwpath, hdec2]
                          exact Sem.intoKids (wpr + 1) wty wpx wep pre2 post2 c2 rr rrs out
                            hwty4 hpre2 hc2 hcpx2 hs2
                        · subst wep2 wout hwtyp
                          rw [wpath]
                          exact Sem.paramEnd (wpr + 1) false _ wpx cs2 v hv hvf
                        · obtain ⟨pre2, post2, c2, hdec2, hpre2, hc2, hcpx2, hs2⟩ :=
                            kids_preserve fuel ih wcs '/' rs2 cs2 (by decide) hins
                              (hwstat rfl) (hwnd rfl) hwkids pre post c '/' rrs o2
                              hwcs2 hwpre hwc3 hws
                          subst hwtyp
                          rw [hwpath, hwout, hdec2]
                          exact Sem.paramKids (wpr + 1) wpx wep pre2 post2 c2 v rrs o2
                            hv hvf hpre2 hc2 hcpx2 hs2
                        · subst hwtyp
                          rw [hwout]
                          exact Sem.caNode (wpr + 1) false _ wpx cs2 wep (r :: rs)
                      exact Sem.intoWild (pr + 1) idx ty px _ [] ep r rs out hty
                        (by simpa using hwty2) hsw
                    · simp at hwc2
                    · rw [htyp] at hty; simp [NodeType.isWild] at hty
                    · rw [htyp] at hty; simp [NodeType.isWild] at hty
                    · rw [htyp] at hty; simp [NodeType.isWild] at hty
              · simp at h
            · rw [if_neg hwc] at h
              by_cases hemp : cs.isEmpty = true
              · rw [if_pos hemp] at h
                rw [attachWild] at h
                simp only [Except.ok.injEq] at h
                subst h
                have hcs0 : cs = [] := by simpa [List.isEmpty_iff] using hemp
                subst hcs0
                rcases sem_inv hsem with ⟨hep2, _, hpath, hout⟩
                  | ⟨w, ws, r, rs, hwc2, hcs2, _⟩
                  | ⟨pre, post, c, r, rs, hwc2, hcs2, _⟩
                  | ⟨v, htyp, _⟩
                  | ⟨pre, post, c, v, rs, o2, htyp, _⟩
                  | ⟨htyp, _⟩
                · subst hep2 hout
                  rw [hpath]
                  exact Sem.epEmpty (pr + 1) true [] ty px _ hty
                · simp at hcs2
                · simp at hcs2
                · rw [htyp] at hty; simp [NodeType.isWild] at hty
                · rw [htyp] at hty; simp [NodeType.isWild] at hty
                · rw [htyp] at hty; simp [NodeType.isWild] at hty
              · rw [if_neg hemp] at h
                simp at h
          · rw [if_neg hbw] at h
            by_cases hwc : wc = true
            · rw [if_pos hwc] at h
              simp at h
            · rw [if_neg hwc] at h
              have hwc0 : wc = false := by simpa using hwc
              subst hwc0
              cases hins : insKidsGo (insF fuel) [] cs b (b :: bs) with
              | error e => rw [hins] at h; simp at h
              | ok cs2 =>
                rw [hins] at h
                simp only [Except.ok.injEq] at h
                subst h
                rcases sem_inv hsem with ⟨hep2, _, hpath, hout⟩
                  | ⟨w, ws, r, rs, hwc2, hcs2, _⟩
                  | ⟨pre, post, c, r, rs, hwc2, hcs2, hidx2, hty2, hpre, hc, hcpx, hpath, hs⟩
                  | ⟨v, htyp, _⟩
                  | ⟨pre, post, c, v, rs, o2, htyp, _⟩
                  | ⟨htyp, _⟩
                · subst hep2 hout
                  rw [hpath]
                  exact Sem.epEmpty (pr + 1) false _ ty px cs2 hty
                · simp at hwc2
                · subst hpath
                  obtain ⟨pre2, post2, c2, hdec2, hpre2, hc2, hcpx2, hs2⟩ :=
                    kids_preserve fuel ih cs b bs cs2 (by simpa using hbw) hins
                      (hstat rfl) (hnd rfl) hkids pre post c r rs out hcs2 hpre hc hs
                  rw [hdec2]
                  exact Sem.intoKids (pr + 1) ty px ep pre2 post2 c2 r rs out
                    hty hpre2 hc2 hcpx2 hs2
                · rw [htyp] at hty; simp [NodeType.isWild] at hty
                · rw [htyp] at hty; simp [NodeType.isWild] at hty
                · rw [htyp] at hty; simp [NodeType.isWild] at hty

theorem findWild_eq_none {p : List Char} (h : ∀ c ∈ p, isWildStart c = false) :
    findWild p = none := by
  induction p with
  | nil => rfl
  | cons a as ih =>
    rw [findWild_static_cons (h a (by simp)), ih (fun c hc => h c (by simp [hc]))]
    rfl

theorem inst_wild_ne_nil {b : Char} {bs path : List Char} {vs : List (List Char)}
    {ps : Params} (hb : isWildStart b = true)
    (h : inst (b :: bs) vs = some (path, ps)) : path ≠ [] := by
  simp only [isWildStart, Bool.or_eq_true, decide_eq_true_eq] at hb
  rcases hb with hb | hb
  · subst hb
    obtain ⟨v, vs2, path2, ps2, _, hv, _, _, hp, _⟩ := inst_cons_param h
    subst hp
    simp [hv]
  · subst hb
    obtain ⟨v, _, hv, _, hp, _⟩ := inst_cons_catch h
    subst hp
    exact hv

theorem kids_create (fuel : Nat)
    (IH : ∀ (c : Node) (p : List Char) (t' : Node), insF fuel c p = .ok t' → Wf c →
      c.nodeType.isWild = false → ∀ (vs : List (List Char)) (path : List Char)
        (ps : Params), inst p vs = some (path, ps) → Sem t' path ps)
    (cs : List Node) (b : Char) (bs : List Char) (cs2 : List Node)
    (hb : isWildStart b = false)
    (hins : insKidsGo (insF fuel) [] cs b (b :: bs) = .ok cs2)
    (hstat : ∀ c ∈ cs, c.nodeType = .static ∧ c.pfx ≠ [])
    (hnd : (cs.map hd).Nodup)
    (hkids : ∀ c ∈ cs, Wf c)
    (vs : List (List Char)) (path : List Char) (ps : Params)
    (hi : inst (b :: bs) vs = some (path, ps)) :
    ∃ pre2 post2 c2, cs2 = pre2 ++ c2 :: post2 ∧ (∀ x ∈ pre2, hd x ≠ b) ∧
      hd c2 = b ∧ c2.pfx ≠ [] ∧ Sem c2 path ps := by
  rcases insKidsGo_cases (insF fuel) b (b :: bs) [] cs cs2 hins with
    ⟨preI, cI, postI, cI2, hcsI, hpreI, hcI, hk, hout⟩ | ⟨hall, hout⟩
  · have hcmem : cI ∈ cs := hcsI ▸
      List.mem_append_right preI (List.mem_cons_self cI postI)
    have hcw : Wf cI := hkids cI hcmem
    have hcst := hstat cI hcmem
    have hs2 : Sem cI2 path ps :=
      IH cI (b :: bs) cI2 hk hcw (by rw [hcst.1]; rfl) vs path ps hi
    have hwfc := insF_wf fuel cI (b :: bs) cI2 hk hcw (by rw [hcst.1]; rfl)
    have hc2px : cI2.pfx ≠ [] ∧ cI2.pfx.headD ' ' = cI.pfx.headD ' ' :=
      hwfc.2.2 (by simp) hcst.2 (by simpa [hd] using hcI.symm)
    obtain ⟨l1, l2, hl12, hpl⟩ := placeIn_split cI2 preI
    refine ⟨l1, l2 ++ postI, cI2, ?_, ?_, ?_, hc2px.1, hs2⟩
    · rw [hout, List.nil_append, hpl]
      simp
    · intro x hx
      have hxp : x ∈ preI := by rw [hl12]; exact List.mem_append_left l2 hx
      exact hpreI x hxp
    · show hd cI2 = b
      rw [hd, hc2px.2]
      exact hcI
  · have hbs := @buildChain_static b bs hb
    refine ⟨cs, [], buildChain (b :: bs), ?_, hall, hbs.2.2, hbs.2.1, ?_⟩
    · rw [hout, List.nil_append]
    · exact build_sem (b :: bs) vs path ps hi

set_option maxHeartbeats 1600000 in
theorem insF_creates : ∀ (fuel : Nat) (n : Node) (p : List Char) (t' : Node),
    insF fuel n p = .ok t' → Wf n → n.nodeType.isWild = false →
    ∀ (vs : List (List Char)) (path : List Char) (ps : Params),
      inst p vs = some (path, ps) → Sem t' path ps := by
  intro fuel
  induction fuel with
  | zero =>
    intro n p t' h
    rw [insF] at h
    simp at h
  | succ fuel ih =>
    intro n p t' h hwf hty vs path ps hinst
    obtain ⟨pr, wc, idx, ty, px, cs, ep⟩ := n
    simp only at hty
    cases hwf with
    | mk _ _ _ _ _ _ _ hidx hwild hstat hnd hwty hpxf hkids =>
    simp only [insF] at h
    have hpxfree : ∀ c ∈ px, isWildStart c = false := hpxf hty
    by_cases hfresh : (px.isEmpty && cs.isEmpty && !ep) = true
    · rw [if_pos hfresh] at h
      simp only [Except.ok.injEq] at h
      subst h
      simp only [Bool.and_eq_true, Bool.not_eq_true', List.isEmpty_iff] at hfresh
      obtain ⟨⟨hpx, hcs⟩, hep⟩ := hfresh
      subst hpx hcs hep
      rw [buildInto]
      split
      · rename_i hfw
        obtain ⟨hvs, hpath, hps⟩ := inst_nowild hfw hinst
        subst hpath hps
        exact Sem.epEmpty (pr + 1) wc idx ty _ [] hty
      · rename_i s isCatch nm r hfw
        obtain ⟨hdec, htk, hdr⟩ := findWild_decomp hfw
        have hsh := findWild_rest_shape hfw
        have hsstat := findWild_some_static hfw
        rw [hdec, inst_append_static s hsstat _ vs] at hinst
        cases hq2 : inst ((if isCatch then '*' else ':') :: (nm ++ r)) vs with
        | none => rw [hq2] at hinst; simp at hinst
        | some t =>
          obtain ⟨path', ps'⟩ := t
          rw [hq2] at hinst
          simp only [Option.map_some', Option.some.injEq, Prod.mk.injEq] at hinst
          obtain ⟨hpath, hps⟩ := hinst
          subst hps
          have hwsem : Sem (buildWild isCatch nm r) path' ps' ∧ path' ≠ [] := by
            cases isCatch with
            | true =>
              obtain ⟨v, hvs, hv, hrd, hp2, hps2⟩ := inst_cons_catch hq2
              rw [← htk] at hps2
              subst hp2 hps2
              exact ⟨buildWild_catch_sem nm r _, hv⟩
            | false =>
              obtain ⟨v, vs2, path2, ps2, hvs, hv, hvf, hi2, hp2, hps2⟩ :=
                inst_cons_param hq2
              rw [← htk] at hps2
              rw [← hdr] at hi2
              subst hp2 hps2
              refine ⟨?_, by simp [hv]⟩
              exact (build_sem_aux r.length).2 nm r vs2 v path2 ps2 le_rfl hsh hv hvf hi2
          obtain ⟨hws, hpne⟩ := hwsem
          obtain ⟨r0, rs0, hp0⟩ : ∃ r0 rs0, path' = r0 :: rs0 := by
            cases path' with
            | nil => exact absurd rfl hpne
            | cons a as => exact ⟨a, as, rfl⟩
          subst hp0
          rw [← hpath]
          exact Sem.intoWild (pr + 1) [] ty s (buildWild isCatch nm r) [] false r0 rs0
            ps' hty (buildWild_isWild _ _ _) hws
    · rw [if_neg hfresh] at h
      by_cases hsplit : lcpLen p px < px.length
      · rw [if_pos hsplit] at h
        simp only [splitIns] at h
        have htkeq : p.take (lcpLen p px) = px.take (lcpLen p px) := lcpLen_take_eq p px
        cases hdrop2 : p.drop (lcpLen p px) with
        | nil =>
          rw [hdrop2] at h
          simp only [Except.ok.injEq] at h
          subst h
          have hplen : p.length ≤ lcpLen p px := by
            have h1 := List.drop_eq_nil_iff_le.1 hdrop2
            omega
          have hpeq : p = px.take (lcpLen p px) := by
            rw [← htkeq, List.take_of_length_le hplen]
          have hpfree : ∀ c ∈ p, isWildStart c = false := by
            intro c hc
            rw [hpeq] at hc
            exact hpxfree c (List.take_subset _ _ hc)
          obtain ⟨hvs, hpath, hps⟩ := inst_nowild (findWild_eq_none hpfree) hinst
          subst hps
          rw [hpath]
          have hsem2 : Sem ⟨pr + 1, false, derIdx false [⟨pr, wc, idx, .static,
              px.drop (lcpLen p px), cs, ep⟩], ty, px.take (lcpLen p px),
              [⟨pr, wc, idx, .static, px.drop (lcpLen p px), cs, ep⟩], true⟩
              (px.take (lcpLen p px)) [] :=
            Sem.epEmpty (pr + 1) false _ ty _ _ hty
          nth_rewrite 2 [← hpeq] at hsem2
          exact hsem2
        | cons b2 bs2 =>
          rw [hdrop2] at h
          simp only [] at h
          by_cases hw2 : isWildStart b2 = true
          · rw [if_pos hw2] at h
            simp at h
          · rw [if_neg hw2] at h
            simp only [Except.ok.injEq] at h
            subst h
            have hpdec : p = px.take (lcpLen p px) ++ b2 :: bs2 := by
              conv_lhs => rw [← List.take_append_drop (lcpLen p px) p]
              rw [htkeq, hdrop2]
            have htfree : ∀ c ∈ px.take (lcpLen p px), isWildStart c = false :=
              fun c hc => hpxfree c (List.take_subset _ _ hc)
            rw [hpdec, inst_append_static _ htfree _ vs] at hinst
            cases hq2 : inst (b2 :: bs2) vs with
            | none => rw [hq2] at hinst; simp at hinst
            | some t =>
              obtain ⟨path', ps'⟩ := t
              rw [hq2] at hinst
              simp only [Option.map_some', Option.some.injEq, Prod.mk.injEq] at hinst
              obtain ⟨hpath, hps⟩ := hinst
              subst hps
              obtain ⟨t2, hp2⟩ := inst_head_static (by simpa using hw2) hq2
              subst hp2
              have hchainsem : Sem (buildChain (b2 :: bs2)) (b2 :: t2) ps' :=
                build_sem (b2 :: bs2) vs _ ps' hq2
              have hdne : (px.drop (lcpLen p px)).headD ' ' ≠ b2 := by
                have hplen : lcpLen p px < p.length := lt_length_of_drop_cons hdrop2
                have hne := lcpLen_drop_head_ne p px hplen hsplit
                rw [hdrop2] at hne
                simp only [List.headD_cons] at hne
                exact fun hcon => hne hcon.symm
              have hbs := @buildChain_static b2 bs2 (by simpa using hw2)
              rw [← hpath]
              exact Sem.intoKids (pr + 1) ty (px.take (lcpLen p px)) false
                [⟨pr, wc, idx, .static, px.drop (lcpLen p px), cs, ep⟩] []
                (buildChain (b2 :: bs2)) b2 t2 ps' hty
                (by intro x hx; simp at hx; subst hx; simpa [hd] using hdne)
                hbs.2.2 hbs.2.1 hchainsem
      · rw [if_neg hsplit] at h
        have hfull := lcp_full_decomp hsplit
        cases hdrop : p.drop (lcpLen p px) with
        | nil =>
          rw [hdrop] at h
          simp only [Except.ok.injEq] at h
          subst h
          have hpeq : p = px := by
            have h1 := hfull.1
            rw [← hfull.2] at h1
            rw [hdrop, List.append_nil] at h1
            exact h1
          have hpfree : ∀ c ∈ p, isWildStart c = false := by
            intro c hc
            exact hpxfree c (hpeq ▸ hc)
          obtain ⟨hvs, hpath, hps⟩ := inst_nowild (findWild_eq_none hpfree) hinst
          subst hpath hps
          rw [hpeq]
          exact Sem.epEmpty (pr + 1) wc idx ty px cs hty
        | cons b bs =>
          rw [hdrop] at h
          simp only [] at h
          have hpdec : p = px ++ b :: bs := by
            conv_lhs => rw [hfull.1]
            rw [← hfull.2, hdrop]
          rw [hpdec, inst_append_static px hpxfree _ vs] at hinst
          cases hq2 : inst (b :: bs) vs with
          | none => rw [hq2] at hinst; simp at hinst
          | some t =>
            obtain ⟨path', ps'⟩ := t
            rw [hq2] at hinst
            simp only [Option.map_some', Option.some.injEq, Prod.mk.injEq] at hinst
            obtain ⟨hpath, hps⟩ := hinst
            subst hps
            by_cases hbw : isWildStart b = true
            · rw [if_pos hbw] at h
              by_cases hwc : wc = true
              · rw [if_pos hwc] at h
                obtain ⟨w, hcseq, hwty2⟩ := hwild hwc
                subst hcseq hwc
                simp only [] at h
                have hwfw : Wf w := hkids w (by simp)
                obtain ⟨wpr, wwc, widx, wty, wpx, wcs, wep⟩ := w
                simp only at hwty2
                cases hwfw with
                | mk _ _ _ _ _ _ _ hwidx hwwild hwstat hwnd hwwty hwpxf hwkids =>
                have hwwc : wwc = false := hwwty hwty2
                subst hwwc
                simp only [insWildGo] at h
                split at h
                · rename_i hcond
                  simp only [isWildStart, Bool.or_eq_true, decide_eq_true_eq] at hbw
                  rcases hbw with hbc | hbc
                  · subst hbc
                    obtain ⟨v, vs2, path2, ps2, hvs, hv, hvf, hi2, hp2, hps2⟩ :=
                      inst_cons_param hq2
                    subst hp2 hps2
                    have hwildty : wty = .param := by
                      simpa [wildTy] using hcond.1
                    subst hwildty
                    obtain ⟨v0, vt, hv0⟩ : ∃ v0 vt, v = v0 :: vt := by
                      cases v with
                      | nil => exact absurd rfl hv
                      | cons a as => exact ⟨a, as, rfl⟩
                    subst hv0
                    cases hrest : bs.dropWhile (· ≠ '/') with
                    | nil =>
                      rw [hrest] at h
                      simp only [Except.ok.injEq] at h
                      subst h
                      rw [hrest] at hi2
                      obtain ⟨hvs2, hpp2, hpps2⟩ := @inst_nowild [] rfl vs2 path2 ps2 hi2
                      subst hpp2 hpps2
                      rw [← hpath, ← hcond.2, List.append_nil]
                      exact Sem.intoWild (pr + 1) idx ty px _ [] ep v0 vt _ hty
                        (by simp [NodeType.isWild])
                        (Sem.paramEnd (wpr + 1) false widx wpx wcs (v0 :: vt)
                          (by simp) hvf)
                    | cons r2 rs2 =>
                      rw [hrest] at h
                      simp only [] at h
                      have hr2 : r2 = '/' := dropWhile_headD_slash bs r2 rs2 hrest
                      subst hr2
                      cases hins : insKidsGo (insF fuel) [] wcs '/' ('/' :: rs2) with
                      | error e => rw [hins] at h; simp at h
                      | ok cs2 =>
                        rw [hins] at h
                        simp only [Except.ok.injEq] at h
                        subst h
                        rw [hrest] at hi2
                        obtain ⟨pre2, post2, c2, hdec2, hpre2, hc2, hcpx2, hs2⟩ :=
                          kids_create fuel ih wcs '/' rs2 cs2 (by decide) hins
                            (hwstat rfl) (hwnd rfl) hwkids vs2 path2 ps2 hi2
                        obtain ⟨t2, hp2⟩ := inst_head_static (by decide) hi2
                        subst hp2
                        have hsw : Sem ⟨wpr + 1, false, derIdx false cs2, .param, wpx,
                            cs2, wep⟩ ((v0 :: vt) ++ '/' :: t2) ((wpx, v0 :: vt) :: ps2) := by
                          rw [hdec2]
                          exact Sem.paramKids (wpr + 1) wpx wep pre2 post2 c2 (v0 :: vt)
                            t2 ps2 (by simp) hvf hpre2 hc2 hcpx2 hs2
                        rw [List.cons_append] at hsw
                        rw [← hpath, ← hcond.2, List.cons_append]
                        exact Sem.intoWild (pr + 1) idx ty px _ [] ep v0 (vt ++ '/' :: t2)
                          _ hty (by simp [NodeType.isWild]) hsw
                  · subst hbc
                    obtain ⟨v, hvs, hv, hrd, hp2, hps2⟩ := inst_cons_catch hq2
                    subst hps2
                    have hwildty : wty = .catchAll := by
                      simpa [wildTy] using hcond.1
                    subst hwildty
                    rw [hrd] at h
                    simp only [Except.ok.injEq] at h
                    subst h
                    obtain ⟨v0, vt, hv0⟩ : ∃ v0 vt, v = v0 :: vt := by
                      cases v with
                      | nil => exact absurd rfl hv
                      | cons a as => exact ⟨a, as, rfl⟩
                    subst hv0
                    subst hp2
                    rw [← hpath, ← hcond.2]
                    exact Sem.intoWild (pr + 1) idx ty px _ [] ep v0 vt _ hty
                      (by simp [NodeType.isWild])
                      (Sem.caNode (wpr + 1) false widx wpx wcs true (v0 :: vt))
                · simp at h
              · rw [if_neg hwc] at h
                by_cases hemp : cs.isEmpty = true
                · rw [if_pos hemp] at h
                  rw [attachWild] at h
                  simp only [Except.ok.injEq] at h
                  subst h
                  have hchainsem : Sem (buildChain (b :: bs)) path' ps' :=
                    build_sem (b :: bs) vs path' ps' hq2
                  have hpne : path' ≠ [] := inst_wild_ne_nil hbw hq2
                  obtain ⟨r0, rs0, hp0⟩ : ∃ r0 rs0, path' = r0 :: rs0 := by
                    cases path' with
                    | nil => exact absurd rfl hpne
                    | cons a as => exact ⟨a, as, rfl⟩
                  subst hp0
                  rw [← hpath]
                  exact Sem.intoWild (pr + 1) [] ty px (buildChain (b :: bs)) [] ep r0
                    rs0 ps' hty (buildChain_wild hbw) hchainsem
                · rw [if_neg hemp] at h
                  simp at h
            · rw [if_neg hbw] at h
              by_cases hwc : wc = true
              · rw [if_pos hwc] at h
                simp at h
              · rw [if_neg hwc] at h
                have hwc0 : wc = false := by simpa using hwc
                subst hwc0
                cases hins : insKidsGo (insF fuel) [] cs b (b :: bs) with
                | error e => rw [hins] at h; simp at h
                | ok cs2 =>
                  rw [hins] at h
                  simp only [Except.ok.injEq] at h
                  subst h
                  obtain ⟨pre2, post2, c2, hdec2, hpre2, hc2, hcpx2, hs2⟩ :=
                    kids_create fuel ih cs b bs cs2 (by simpa using hbw) hins
                      (hstat rfl) (hnd rfl) hkids vs path' ps' hq2
                  obtain ⟨t2, hp2⟩ := inst_head_static (by simpa using hbw) hq2
                  subst hp2
                  rw [← hpath, hdec2]
                  exact Sem.intoKids (pr + 1) ty px ep pre2 post2 c2 b t2 ps' hty
                    hpre2 hc2 hcpx2 hs2

theorem foldl_insert_sem : ∀ (qs : List String) (n t : Node),
    List.foldlM Node.insert n qs = .ok t → Wf n → n.nodeType.isWild = false →
    (∀ (path : List Char) (out : Params), Sem n path out → Sem t path out)
    ∧ (∀ q ∈ qs, ∀ (vs : List (List Char)) (path : List Char) (ps : Params),
        inst q.toList vs = some (path, ps) → Sem t path ps) := by
  intro qs
  induction qs with
  | nil =>
    intro n t h hw hty
    simp only [List.foldlM, pure, Except.pure, Except.ok.injEq] at h
    subst h
    exact ⟨fun path out hs => hs, fun q hq => absurd hq (by simp)⟩
  | cons q qs ih =>
    intro n t h hw hty
    simp only [List.foldlM, bind, Except.bind] at h
    cases hq : Node.insert n q with
    | error e => rw [hq] at h; exact Except.noConfusion h
    | ok n2 =>
      rw [hq] at h
      simp only [] at h
      rw [Node.insert] at hq
      cases hpe : patErr q.toList [] with
      | some e => rw [hpe] at hq; simp at hq
      | none =>
        rw [hpe] at hq
        have hw2 := insF_wf (q.toList.length + 2) n q.toList n2 hq hw hty
        have hty2 : n2.nodeType.isWild = false := by rw [hw2.2.1]; exact hty
        have hih := ih n2 t h hw2.1 hty2
        constructor
        · intro path out hs
          exact hih.1 path out (insF_preserves _ n q.toList n2 hq hw hty path out hs)
        · intro q2 hq2 vs path ps hi
          rcases List.mem_cons.1 hq2 with hq2 | hq2
          · subst hq2
            exact hih.1 path ps (insF_creates _ n q2.toList n2 hq hw hty vs path ps hi)
          · exact hih.2 q2 hq2 vs path ps hi

/-- **C1.** For every sequence of patterns that insertion accepts without
error, and every path instantiating one of those patterns (non-empty
literal segments substituted for its wildcards: a `/`-free literal for
each `Param`, a final remainder for a `CatchAll`), the frozen tree's
matching walk `at` returns `ok` with exactly the parameter names declared
in that pattern, in order, each bound to the substituted literal
substring (`inst` produces the instantiated path together with those
expected bindings). -/
theorem insert_at_complete :
    ∀ (pats : List String) (t : Node), insertAll pats = .ok t →
      ∀ p ∈ pats, ∀ (vs : List (List Char)) (path : List Char) (ps : Params),
        inst p.toList vs = some (path, ps) →
        (freeze t).at path = .ok ps := by
  intro pats t h p hp vs path ps hi
  have hm := (foldl_insert_sem pats Node.start t h Wf_start rfl).2 p hp vs path ps hi
  have hs := sem_sound t path ps hm (path.length + 2) [] (by omega) (fun _ _ => le_rfl)
  rw [ConstNode.at, atAux, hs]
  simp

/-- Witness for `insert_at_complete` on a concrete pattern and path. -/
theorem insert_at_complete_witness :
    (freeze (treeOf ["/users/:id"])).at (String.toList "/users/42")
      = .ok [(String.toList "id", String.toList "42")] :=
  insert_at_complete ["/users/:id"] (treeOf ["/users/:id"]) rfl "/users/:id"
    (List.mem_singleton.mpr rfl) [String.toList "42"]
    (String.toList "/users/42") [(String.toList "id", String.toList "42")] rfl
